import Mathlib

/-!
# A shallow embedding of `adam_core.utils.indexable`

This file embeds the indexed-entity core of the repository
(`src/adam_core/utils/indexable.py`) in Lean 4 and settles the claims of the
specification against it.

Modelling conventions:

* A numpy 1-D array of numbers is a `List Int`, an array of strings is a
  `List String`.  Only the leading axis is ever indexed by the code, so
  higher-dimensional arrays carry no extra information for these claims.
* An `astropy.time.Time` value is its array of MJD values together with its
  scale string; the display `format` is presentation-only (the code always
  reconstructs with `format="mjd"`) and is not modelled.
* A masked array is its data together with its boolean mask.
* Python exceptions become an `Err`-valued `Except`.
* Python `slice` objects that the module constructs always carry an explicit
  step (the code builds `slice(a, b, 1)`); they are modelled by `Slc`.
* Selections passed by callers (`entity[...]`, `del entity[...]`) are
  non-negative integers, `[start:stop]` ranges with non-negative bounds, or
  arrays of non-negative positions, matching the domain the specification's
  claims quantify over.
* Recursion into nested entities is bounded by an explicit fuel parameter so
  that every definition is structurally recursive and kernel-executable; a
  fuel of `d` handles entities whose nesting depth is below `d`, and
  exhausting the fuel returns the artificial error `Err.outOfFuel`, which is
  never reached at sufficient fuel.
-/

set_option linter.unusedVariables false

namespace AdamCore

/-- Python exceptions raised (or assertions failed) by `indexable.py`. -/
inductive Err where
  | valueError (msg : String)
  | indexError
  | typeError
  | notImplementedError
  | attributeError
  | assertionError
  | keyError
  | outOfFuel
  deriving DecidableEq, Repr

/-- A raw index key value: the module accepts integer or string key arrays
(`set_index` remaps any non-integer dtype, and in fact any numpy array, to a
dense integer encoding). -/
inductive Key where
  | i (n : Int)
  | s (st : String)
  deriving DecidableEq, Repr

/-- An opaque (unsliceable) attribute value: str, int, float, bool, dict,
set, OrderedDict are copied verbatim and never indexed.  The payload variants
model the kinds the claims exercise. -/
inductive OpaqueVal where
  | str (s : String)
  | int (n : Int)
  | bool (b : Bool)
  deriving DecidableEq, Repr

/-- A python `slice(start, stop, step)` as constructed by the module
(`_convert_grouped_array_to_slices` always builds `slice(a, b, 1)`). -/
structure Slc where
  start : Nat
  stop : Nat
  step : Nat
  deriving DecidableEq, Repr

/-- The value stored in `self._class_index`: normally a 1-D integer array,
but `__getitem__` with an integer selection stores the numpy *scalar*
`v[np.s_[i]]` there. -/
inductive NpIdx where
  | arr (xs : List Nat)
  | scal (x : Nat)
  deriving DecidableEq, Repr

/-- The value stored in `self._class_index_to_members`: an object array of
slices (slice form) or the per-row integer group array (raw form). -/
inductive Mapping where
  | slices (ss : List Slc)
  | raw (vs : List Nat)
  deriving DecidableEq, Repr

/-- The index bookkeeping attributes set by `Indexable.set_index`.  In python
these live in the instance `__dict__` next to the data members; every loop
over `__dict__` in the source therefore also visits them, and the embedding
reproduces that in each operation. -/
structure IState where
  class_index : NpIdx
  mapping : Mapping
  is_slice : Bool
  attrName : Option String
  member_index : List Nat
  member_length : Nat
  deriving DecidableEq, Repr

/-- A selection passed to `__getitem__` / `__delitem__` / `_query_index`:
an integer, a `[start:stop]` slice (step omitted, i.e. 1), or a list/array of
positions. -/
inductive Sel where
  | int (i : Nat)
  | slice (start : Option Nat) (stop : Option Nat)
  | list (xs : List Nat)
  deriving DecidableEq, Repr

/-- What `_query_index` returns: a (possibly fused) slice into the members,
or an integer array used for fancy indexing. -/
inductive MemberSel where
  | slc (s : Slc)
  | idx (xs : List Nat)
  deriving DecidableEq, Repr

/-- The argument of `set_index`: `None`, an attribute name, or an explicit
key array. -/
inductive IndexSpec where
  | dflt
  | attr (nm : String)
  | keys (ks : List Key)
  deriving DecidableEq, Repr

/-! ## List helpers modelling numpy / pandas primitives -/

/-- Helper of `uniqueFirst`: drop the values already seen. -/
def uniqueFirstGo {α : Type} [DecidableEq α] (seen : List α) : List α → List α
  | [] => []
  | a :: l => if a ∈ seen then uniqueFirstGo seen l else a :: uniqueFirstGo (a :: seen) l

/-- `pd.unique`: unique values in order of first occurrence. -/
def uniqueFirst {α : Type} [DecidableEq α] (xs : List α) : List α :=
  uniqueFirstGo [] xs

/-- The dense integer remap `set_index` applies to raw key arrays: each value
is replaced by the rank of its first occurrence (the pandas
`drop_duplicates` + `merge` dance at `indexable.py:239-244`). -/
def mapToDense {α : Type} [DecidableEq α] (xs : List α) : List Nat :=
  xs.map (fun x => (uniqueFirst xs).indexOf x)

/-- `np.where(values == v)[0]`: the positions at which `v` occurs. -/
def positionsOf (xs : List Nat) (v : Nat) : List Nat :=
  (List.range xs.length).filter (fun i => xs.getD i 0 = v)

/-- numpy basic slicing `xs[start:stop]` with non-negative bounds
(`None` bounds default to the ends; out-of-range bounds clamp). -/
def sliceList {α : Type} (xs : List α) (start stop : Option Nat) : List α :=
  (xs.take (stop.getD xs.length)).drop (start.getD 0)

/-- numpy basic slicing `xs[s.start : s.stop : s.step]` for a constructed
slice (step is always ≥ 1 in this module; every slice it builds has step 1). -/
def applySlc {α : Type} (xs : List α) (s : Slc) : List α :=
  let base := (xs.take s.stop).drop s.start
  if s.step = 1 then base
  else (base.enum.filter (fun p => p.1 % s.step = 0)).map (fun p => p.2)

/-- numpy fancy indexing `xs[is]`; an out-of-range index raises IndexError. -/
def gatherL {α : Type} (xs : List α) (is : List Nat) : Except Err (List α) :=
  match is with
  | [] => .ok []
  | i :: rest =>
    match xs[i]? with
    | none => .error .indexError
    | some a => do
      let tl ← gatherL xs rest
      .ok (a :: tl)

/-- Total gather used on the specification side of lemmas (defined for
in-range index lists, where it agrees with `gatherL`). -/
def gatherD {α : Type} [Inhabited α] (xs : List α) (is : List Nat) : List α :=
  is.map (fun i => xs.getD i default)

/-- An error-propagating map over a list (the loops over `__dict__` items). -/
def mapME {α β : Type} (g : α → Except Err β) : List α → Except Err (List β)
  | [] => .ok []
  | a :: l => do
    let b ← g a
    let bs ← mapME g l
    .ok (b :: bs)

/-- Is row position `i` selected by slice `s`? (step-aware membership). -/
def inSlc (i : Nat) (s : Slc) : Bool :=
  decide (s.start ≤ i) && decide (i < s.stop) && decide ((i - s.start) % s.step = 0)

/-- `np.delete(xs, member_sel, axis=0)`: remove the selected positions,
preserving the order of the remaining rows.  For fancy index lists numpy
raises IndexError on an out-of-range index. -/
def npDeleteMs {α : Type} (xs : List α) (m : MemberSel) : Except Err (List α) :=
  match m with
  | .slc s => .ok ((xs.enum.filter (fun p => !inSlc p.1 s)).map (fun p => p.2))
  | .idx is =>
    if is.all (fun i => i < xs.length) then
      .ok ((xs.enum.filter (fun p => !is.contains p.1)).map (fun p => p.2))
    else
      .error .indexError

/-! ## The entity: data members plus index bookkeeping

An `Indexable` instance is its attribute `__dict__`.  The embedding splits it
into the ordered list of data members (`flds`, name → value) and the six
index attributes (`ist`, absent before the first `set_index`).  Wherever the
source iterates over the whole `__dict__`, the embedding handles the data
members and then the index attributes explicitly, respecting the type
dispatch the source performs on each. -/

mutual

/-- A data member of an `Indexable`: a numeric array, a string array, a
masked array (data plus mask), an astropy `Time` (MJD values plus scale), a
nested `Indexable`, an opaque value, or `None`. -/
inductive Fld where
  | arr (xs : List Int)
  | sarr (xs : List String)
  | marr (data : List Int) (mask : List Bool)
  | time (mjd : List Int) (scale : String)
  | nested (e : Entity)
  | opaq (v : OpaqueVal)
  | none

/-- An `Indexable` instance: named data members plus the index state. -/
inductive Entity where
  | mk (flds : List (String × Fld)) (ist : Option IState)

end

/-- The data members of an entity. -/
def Entity.flds : Entity → List (String × Fld)
  | .mk fs _ => fs

/-- The index state of an entity (`None` before the first `set_index`). -/
def Entity.ist : Entity → Option IState
  | .mk _ st => st

/-- First data member with the given name (python attribute lookup; the
`__dict__` has unique keys, so first match is the match). -/
def lookupF (e : Entity) (nm : String) : Option Fld :=
  match e.flds.find? (fun p => p.1 = nm) with
  | some p => some p.2
  | Option.none => Option.none

/-! ## `_convert_grouped_array_to_slices` (indexable.py:19-52) -/

/-- Length of a mapping array (`len(self._class_index_to_members)`). -/
def mappingLen : Mapping → Nat
  | .slices ss => ss.length
  | .raw vs => vs.length

/-- `len` of the `_class_index` attribute; a numpy scalar (stored there by an
integer `__getitem__`) is not sized, which python reports as a TypeError. -/
def lenNp : NpIdx → Except Err Nat
  | .arr xs => .ok xs.length
  | .scal _ => .error .typeError

/-- `np.all(np.diff(mask) != 1)`: *every* gap between consecutive occurrence
positions differs from 1.  This is the contiguity test the source actually
performs (indexable.py:46); note it is `all`, not `any`. -/
def diffsAllNe1 (mask : List Nat) : Bool :=
  (mask.zip mask.tail).all (fun p => p.2 - p.1 ≠ 1)

/-- Helper of `_convert_grouped_array_to_slices`: walk the unique values,
accumulating `slice_start`. -/
def slicesGo (values : List Nat) : List Nat → Nat → Except Err (List Slc)
  | [], _ => .ok []
  | u :: us, start =>
    let mask := positionsOf values u
    if mask.length > 1 ∧ diffsAllNe1 mask then
      .error (.valueError "The values must be grouped.")
    else do
      let rest ← slicesGo values us (start + mask.length)
      .ok (⟨start, start + mask.length, 1⟩ :: rest)

/-- `_convert_grouped_array_to_slices(values)` (indexable.py:19-52): build
one `slice(slice_start, slice_start + len(mask), 1)` per unique value, or
raise `ValueError("The values must be grouped.")` when a group with more
than one occurrence has *no* adjacent pair of positions. -/
def convertGroupedArrayToSlices (values : List Nat) : Except Err (List Slc) :=
  slicesGo values (uniqueFirst values) 0

/-! ## `_check_member_validity` and `set_index` (indexable.py:142-266) -/

/-- `len(v)` for the members counted by `_check_member_validity`: only
instances of `SLICEABLE_DATA_STRUCTURES = (np.ndarray, np.ma.masked_array,
Time)` contribute; nested `Indexable`s and opaque values do not. -/
def fldSliceLen : Fld → Option Nat
  | .arr xs => some xs.length
  | .sarr xs => some xs.length
  | .marr d _ => some d.length
  | .time mjd _ => some mjd.length
  | .nested _ => Option.none
  | .opaq _ => Option.none
  | .none => Option.none

/-- The multiset of sliceable-member lengths the validity scan collects.
Once an index has been set, `_class_index`, `_class_index_to_members` and
`_member_index` are themselves numpy arrays in `__dict__` and are counted
too. -/
def memberLens (e : Entity) : Except Err (List Nat) :=
  let dataLens := e.flds.filterMap (fun p => fldSliceLen p.2)
  match e.ist with
  | Option.none => .ok dataLens
  | some st => do
    let cl ← lenNp st.class_index
    .ok (dataLens ++ [cl, mappingLen st.mapping, st.member_index.length])

/-- `_check_member_validity` (indexable.py:142-172): the set of sliceable
member lengths must have exactly one element; returns that common length.
(The member index `np.arange(0, member_length)` is derived from it.) -/
def checkMemberValidity (e : Entity) : Except Err Nat := do
  let lens ← memberLens e
  match uniqueFirst lens with
  | [n] => .ok n
  | _ => .error (.valueError "All sliceable members must have the same length.")

/-- Resolve `getattr(self, index_values)` to a raw key array.  Only plain
numeric or string arrays are meaningful as key sources; anything else would
make the pandas remap blow up and is reported as a TypeError. -/
def getattrKeys (e : Entity) (nm : String) : Except Err (List Key) :=
  match lookupF e nm with
  | Option.none => .error .attributeError
  | some (.arr xs) => .ok (xs.map Key.i)
  | some (.sarr xs) => .ok (xs.map Key.s)
  | some _ => .error .typeError

/-- The `_class_index_attribute` recorded by `set_index`: the attribute name
when a string was passed, `None` for both the default and an explicit key
array. -/
def attrOfSpec : IndexSpec → Option String
  | .attr nm => some nm
  | _ => Option.none

/-- `Indexable.set_index` (indexable.py:174-266).

Order of operations as in the source: validate member lengths, resolve the
raw key values, remap them to a dense first-occurrence integer encoding
(the guard `class_index_values.dtype.type != int` compares a numpy scalar
type with the python builtin `int` and is therefore true for *every* numpy
array, including the default `np.arange`, for which the remap is the
identity), extract the unique values as the class index, and try the
slice-form compression, falling back to the raw mapping on `ValueError`. -/
def setIndex (e : Entity) (spec : IndexSpec) : Except Err Entity := do
  let n ← checkMemberValidity e
  let rawKeys : List Key ←
    match spec with
    | .dflt => pure ((List.range n).map (fun i => Key.i (Int.ofNat i)))
    | .attr nm => getattrKeys e nm
    | .keys ks => pure ks
  let vals := mapToDense rawKeys
  let ci := uniqueFirst vals
  match convertGroupedArrayToSlices vals with
  | .ok ss =>
    .ok (.mk e.flds (some ⟨.arr ci, .slices ss, true, attrOfSpec spec, List.range n, n⟩))
  | .error _ =>
    .ok (.mk e.flds (some ⟨.arr ci, .raw vals, false, attrOfSpec spec, List.range n, n⟩))

/-- `Indexable.__init__(index_values)` (indexable.py:123-125): a fresh
instance carries only its data members and immediately sets its index. -/
def initE (flds : List (String × Fld)) (spec : IndexSpec) : Except Err Entity :=
  setIndex (.mk flds Option.none) spec

/-- `len(entity)` = `len(self._class_index)` (indexable.py:350-351). -/
def lenE (e : Entity) : Except Err Nat :=
  match e.ist with
  | some st => lenNp st.class_index
  | Option.none => .error .attributeError

/-! ## `_query_index` (indexable.py:268-348) -/

/-- The consecutive-and-uniform-step test on a gathered list of slices
(indexable.py:313-320): every slice's stop equals the next slice's start and
the steps agree (a constructed step is never `None`). -/
def consecutiveSlcs : List Slc → Bool
  | [] => true
  | [_] => true
  | a :: b :: rest =>
    (a.stop == b.start) && (a.step == b.step) && consecutiveSlcs (b :: rest)

/-- `self._class_index[ind]` for a slice or array selection. -/
def classIndexAt (c : NpIdx) (sel : Sel) : Except Err (List Nat) :=
  match c, sel with
  | .scal _, _ => .error .typeError
  | .arr xs, .slice a b => .ok (sliceList xs a b)
  | .arr xs, .list is => gatherL xs is
  | .arr _, .int _ => .error .typeError

/-- `self._class_index[s]` for one of the gathered slices. -/
def classIndexAtSlc (c : NpIdx) (s : Slc) : Except Err (List Nat) :=
  match c with
  | .scal _ => .error .typeError
  | .arr xs => .ok (applySlc xs s)

/-- `np.array_equal(self._class_index, self._member_index)`. -/
def npArrayEq : NpIdx → List Nat → Bool
  | .arr xs, ys => xs == ys
  | .scal _, _ => false

/-- `self._member_index[np.isin(self._class_index_to_members, targets)]`
(indexable.py:343-348).  `np.isin` compares the mapping elementwise with the
target key values; in slice form the elements are slice objects, never equal
to an integer.  Boolean-mask indexing requires the mask length to match the
indexed array. -/
def isinSelect (st : IState) (targets : List Nat) : Except Err (List Nat) :=
  let mask : List Bool :=
    match st.mapping with
    | .raw vs => vs.map (fun v => targets.contains v)
    | .slices ss => ss.map (fun _ => false)
  if mask.length = st.member_index.length then
    .ok (((st.member_index.zip mask).filter (fun p => p.2)).map (fun p => p.1))
  else
    .error .indexError

/-- The last two branches of `_query_index` (indexable.py:336-348): direct
indexing when the class index equals the member index, membership testing
otherwise. -/
def queryFallback (st : IState) (ind : Sel) : Except Err MemberSel := do
  if npArrayEq st.class_index st.member_index then
    let v ← classIndexAt st.class_index ind
    .ok (.idx v)
  else
    let targets ← classIndexAt st.class_index ind
    let sel ← isinSelect st targets
    .ok (.idx sel)

/-- The slice-form branch of `_query_index` (indexable.py:307-334): gather
the covered slices, fuse them when consecutive with uniform step, otherwise
concatenate `self._class_index[s]` over the gathered slices.  An empty
gather crashes on `slices[0]` with an IndexError. -/
def querySliceForm (st : IState) (a b : Option Nat) : Except Err MemberSel :=
  match st.mapping with
  | .slices ss =>
    let sub := sliceList ss a b
    if consecutiveSlcs sub then
      match sub with
      | [] => .error .indexError
      | s0 :: rest => .ok (.slc ⟨s0.start, ((s0 :: rest).getLastD s0).stop, s0.step⟩)
    else do
      let parts ← mapME (fun s => classIndexAtSlc st.class_index s) sub
      .ok (.idx parts.flatten)
  | .raw _ => .error .attributeError

/-- `Indexable._query_index(class_ind)` (indexable.py:268-348).

An integer becomes the length-1 slice `[i, i+1)`; a slice with an explicit
start at or past `len(self)` raises IndexError; a slice against a slice-form
mapping goes through fusion; everything else falls back to direct indexing
or the `np.isin` membership test. -/
def queryIndex (st : IState) (sel : Sel) : Except Err MemberSel :=
  let ind : Sel :=
    match sel with
    | .int i => .slice (some i) (some (i + 1))
    | s => s
  match ind with
  | .int _ => .error .typeError
  | .slice a b => do
    (match a with
     | some s => do
       let n ← lenNp st.class_index
       if s ≥ n then .error .indexError else pure ()
     | Option.none => pure ())
    if st.is_slice then querySliceForm st a b
    else queryFallback st (.slice a b)
  | .list xs => queryFallback st (.list xs)

/-! ## `__getitem__` (indexable.py:353-371) -/

/-- The member selection handed to a nested `Indexable` or stored slice:
python passes the slice object or index array through unchanged. -/
def selOfMsel : MemberSel → Sel
  | .slc s => .slice (some s.start) (some s.stop)
  | .idx xs => .list xs

/-- `v[member_ind]` on an array-like member. -/
def applyMs {α : Type} (xs : List α) (m : MemberSel) : Except Err (List α) :=
  match m with
  | .slc s => .ok (applySlc xs s)
  | .idx is => gatherL xs is

/-- `v[member_ind]` on the `_class_index_to_members` attribute (it is a
numpy array in `__dict__`, so `__getitem__` slices it like any member). -/
def applyMsMapping (mp : Mapping) (m : MemberSel) : Except Err Mapping :=
  match mp with
  | .slices ss => do
    let r ← applyMs ss m
    .ok (.slices r)
  | .raw vs => do
    let r ← applyMs vs m
    .ok (.raw r)

/-- `v[np.s_[class_ind]]` on the `_class_index` attribute (indexable.py:369):
the *original* selection, not the resolved member positions; an integer
selection leaves a numpy scalar there. -/
def classIndexView (c : NpIdx) (sel : Sel) : Except Err NpIdx :=
  match c, sel with
  | .scal _, _ => .error .typeError
  | .arr xs, .int i =>
    match xs[i]? with
    | some x => .ok (.scal x)
    | Option.none => .error .indexError
  | .arr xs, .slice a b => .ok (.arr (sliceList xs a b))
  | .arr xs, .list is => do
    let r ← gatherL xs is
    .ok (.arr r)

/-- One step of the member loop of `__getitem__` (indexable.py:357-367):
slice one member by the resolved member selection; `get` performs the
recursive read of a nested entity. -/
def sliceFldAux (get : Entity → Sel → Except Err Entity) (msel : MemberSel)
    (p : String × Fld) : Except Err (String × Fld) := do
  let fl2 ←
    match p.2 with
    | .arr xs => do
      let r ← applyMs xs msel
      pure (Fld.arr r)
    | .sarr xs => do
      let r ← applyMs xs msel
      pure (Fld.sarr r)
    | .marr d m => do
      let rd ← applyMs d msel
      let rm ← applyMs m msel
      pure (Fld.marr rd rm)
    | .time mjd sc => do
      let r ← applyMs mjd msel
      pure (Fld.time r sc)
    | Fld.nested en => do
      let r ← get en (selOfMsel msel)
      pure (Fld.nested r)
    | .opaq v => pure (Fld.opaq v)
    | .none => pure Fld.none
  pure (p.1, fl2)

/-- `Indexable.__getitem__(class_ind)` (indexable.py:353-371): resolve the
member positions, then produce a copy in which every sliceable member and
nested entity is indexed by them, opaque members and `None` are carried
over, the `_class_index` attribute is sliced by the original selection, and
the remaining index attributes are sliced (or, for unsliceable ones, copied)
exactly like ordinary members — no index rebuild happens on the copy. -/
def getitemF : Nat → Entity → Sel → Except Err Entity
  | 0, _, _ => .error .outOfFuel
  | f + 1, e, sel => do
    let st ← match e.ist with
      | some st => pure st
      | Option.none => .error .attributeError
    let msel ← queryIndex st sel
    let fs2 ← mapME (sliceFldAux (getitemF f) msel) e.flds
    let ci ← classIndexView st.class_index sel
    let mi ← applyMs st.member_index msel
    let mp ← applyMsMapping st.mapping msel
    .ok (.mk fs2 (some ⟨ci, mp, st.is_slice, st.attrName, mi, st.member_length⟩))

/-! ## `__delitem__` (indexable.py:373-405) -/

/-- `np.s_[class_ind]` turned into the positions `np.delete` removes from
the `_class_index` attribute. -/
def msOfSelForDelete (len : Nat) : Sel → MemberSel
  | .int i => .idx [i]
  | .slice a b => .slc ⟨a.getD 0, b.getD len, 1⟩
  | .list is => .idx is

/-- One step of the member loop of `__delitem__` (indexable.py:376-398):
`np.delete` the resolved member positions from one member; `del` performs
the recursive deletion on a nested entity. -/
def delFldAux (del : Entity → Sel → Except Err Entity) (msel : MemberSel)
    (p : String × Fld) : Except Err (String × Fld) := do
  let fl2 ←
    match p.2 with
    | .arr xs => do
      let r ← npDeleteMs xs msel
      pure (Fld.arr r)
    | .sarr xs => do
      let r ← npDeleteMs xs msel
      pure (Fld.sarr r)
    | .marr d m => do
      let rd ← npDeleteMs d msel
      let rm ← npDeleteMs m msel
      pure (Fld.marr rd rm)
    | .time mjd sc => do
      let r ← npDeleteMs mjd msel
      pure (Fld.time r sc)
    | Fld.nested en => do
      let r ← del en (selOfMsel msel)
      pure (Fld.nested r)
    | .opaq v => pure (Fld.opaq v)
    | .none => pure Fld.none
  pure (p.1, fl2)

/-- `Indexable.__delitem__(class_ind)` (indexable.py:373-405): resolve the
member positions, `np.delete` them from every sliceable member (mask in
lock-step for masked arrays, `Time` rebuilt from its MJD values with its
scale), recurse into nested entities, reduce the `_class_index` attribute by
the original selection, and finally rebuild the index with the previously
chosen index attribute (`set_index(self._class_index_attribute)`). -/
def delitemF : Nat → Entity → Sel → Except Err Entity
  | 0, _, _ => .error .outOfFuel
  | f + 1, e, sel => do
    let st ← match e.ist with
      | some st => pure st
      | Option.none => .error .attributeError
    let msel ← queryIndex st sel
    let fs2 ← mapME (delFldAux (delitemF f) msel) e.flds
    let ci ← (match st.class_index with
      | .scal _ => .error Err.typeError
      | .arr xs => do
        let r ← npDeleteMs xs (msOfSelForDelete xs.length sel)
        pure (NpIdx.arr r))
    let mi ← npDeleteMs st.member_index msel
    let mp ← (match st.mapping with
      | .slices ss => do
        let r ← npDeleteMs ss msel
        pure (Mapping.slices r)
      | .raw vs => do
        let r ← npDeleteMs vs msel
        pure (Mapping.raw r))
    let e2 : Entity := .mk fs2 (some ⟨ci, mp, st.is_slice, st.attrName, mi, st.member_length⟩)
    setIndex e2 (match st.attrName with | some nm => .attr nm | Option.none => .dflt)

/-! ## `concatenate` (indexable.py:549-630) -/

/-- One step of the per-member loops of `concatenate`
(indexable.py:572-622): gather the same-named member from every later
entity, assert the unsliceable payloads agree, and concatenate the
array-likes; `cat` performs the recursive concatenation of nested
entities. -/
def combineFldAux (cat : List Entity → Except Err Entity) (rest : List Entity)
    (p : String × Fld) : Except Err (String × Fld) := do
  let others ← mapME (fun (e2 : Entity) =>
      match lookupF e2 p.1 with
      | some fl => Except.ok fl
      | Option.none => Except.error Err.keyError) rest
  let comb ←
    match p.2 with
    | Fld.arr xs => do
      let parts ← mapME (fun fl => match fl with
          | Fld.arr ys => Except.ok ys
          | _ => Except.error Err.typeError) others
      pure (Fld.arr (xs ++ parts.flatten))
    | Fld.sarr xs => do
      let parts ← mapME (fun fl => match fl with
          | Fld.sarr ys => Except.ok ys
          | _ => Except.error Err.typeError) others
      pure (Fld.sarr (xs ++ parts.flatten))
    | Fld.marr d m => do
      let parts ← mapME (fun fl => match fl with
          | Fld.marr d2 m2 => Except.ok (d2, m2)
          | _ => Except.error Err.typeError) others
      pure (Fld.marr (d ++ (parts.map (fun q => q.1)).flatten)
                     (m ++ (parts.map (fun q => q.2)).flatten))
    | Fld.time mjd sc => do
      let parts ← mapME (fun fl => match fl with
          | Fld.time m2 sc2 =>
            if sc2 = sc then Except.ok m2 else Except.error Err.assertionError
          | _ => Except.error Err.typeError) others
      pure (Fld.time (mjd ++ parts.flatten) sc)
    | Fld.nested en => do
      let parts ← mapME (fun fl => match fl with
          | Fld.nested e2 => Except.ok e2
          | _ => Except.error Err.typeError) others
      let r ← cat (en :: parts)
      pure (Fld.nested r)
    | Fld.opaq v => do
      let _ ← mapME (fun fl => match fl with
          | Fld.opaq w =>
            if w = v then Except.ok () else Except.error Err.assertionError
          | _ => Except.error Err.typeError) others
      pure (Fld.opaq v)
    | Fld.none => do
      let _ ← mapME (fun fl => match fl with
          | Fld.none => Except.ok ()
          | _ => Except.error Err.typeError) others
      pure Fld.none
  pure (p.1, comb)

/-- `concatenate(indexables)` (indexable.py:549-630).

The source deep-copies the first entity, gathers each `__dict__` entry of
every input into per-key lists (converting `Time` members to MJD arrays and
remembering their scales), asserts that unsliceable entries agree across the
inputs, concatenates each list (recursively for nested entities, via
`np.ma.concatenate` for masked arrays, rebuilding `Time` from the
concatenated MJD values with the shared scale), and finally rebuilds the
index with the first entity's `_class_index_attribute` (or the default).

The index attributes participate like every other `__dict__` entry:
`_member_length` (int), `_class_index_to_members_is_slice` (bool) and
`_class_index_attribute` (str when present) are asserted pairwise equal —
with the asymmetry that a `None` in the first entity followed by a string in
a later one fails the `None == str` assert, while the converse is silently
passed over — and the array-valued `_class_index`, `_class_index_to_members`
and `_member_index` are concatenated before `set_index` overwrites them.
A field present in the first entity but missing from a later one (or with a
structurally different kind) has no faithful same-schema behaviour and is
reported as an error here.  An empty input list hits `indexables[0]`. -/
def concatEF : Nat → List Entity → Except Err Entity
  | 0, _ => .error .outOfFuel
  | _ + 1, [] => .error .indexError
  | f + 1, e1 :: rest => do
    let fs2 ← mapME (combineFldAux (concatEF f) rest) e1.flds
    match e1.ist with
    | Option.none => do
      let _ ← mapME (fun (e2 : Entity) => match e2.ist with
          | Option.none => Except.ok ()
          | some _ => Except.error Err.keyError) rest
      pure (Entity.mk fs2 Option.none)
    | some st1 => do
      let sts ← mapME (fun (e2 : Entity) => match e2.ist with
          | some s2 => Except.ok s2
          | Option.none => Except.error Err.keyError) rest
      let _ ← mapME (fun (s2 : IState) =>
          if s2.member_length ≠ st1.member_length then Except.error Err.assertionError
          else if s2.is_slice ≠ st1.is_slice then Except.error Err.assertionError
          else match st1.attrName, s2.attrName with
            | some a1, some a2 =>
              if a1 = a2 then Except.ok () else Except.error Err.assertionError
            | Option.none, some _ => Except.error Err.assertionError
            | _, Option.none => Except.ok ()) sts
      let ciParts ← mapME (fun (s2 : IState) => match s2.class_index with
          | NpIdx.arr xs => Except.ok xs
          | NpIdx.scal _ =>
            Except.error (Err.valueError "zero-dimensional arrays cannot be concatenated"))
        (st1 :: sts)
      let mp ← (match st1.mapping with
          | Mapping.slices ss => do
            let parts ← mapME (fun (s2 : IState) => match s2.mapping with
                | Mapping.slices t => Except.ok t
                | Mapping.raw _ => Except.error Err.typeError) sts
            pure (Mapping.slices (ss ++ parts.flatten))
          | Mapping.raw vs => do
            let parts ← mapME (fun (s2 : IState) => match s2.mapping with
                | Mapping.raw t => Except.ok t
                | Mapping.slices _ => Except.error Err.typeError) sts
            pure (Mapping.raw (vs ++ parts.flatten)))
      let mi := (st1.member_index :: sts.map (fun s2 => s2.member_index)).flatten
      let pre : Entity :=
        .mk fs2 (some ⟨NpIdx.arr ciParts.flatten, mp, st1.is_slice, st1.attrName, mi,
                       st1.member_length⟩)
      setIndex pre (match st1.attrName with
        | some nm => .attr nm
        | Option.none => .dflt)

/-! ## `sort_values` (indexable.py:426-546)

The actual ordering work is delegated to
`pandas.DataFrame.sort_values(..., kind="stable")`, an external library
call.  It is modelled by its documented behaviour: a stable multi-key sort,
each key ascending or descending per its flag, equal composite keys keeping
their original relative order.  Because ties are broken by the original row
position, the result is the unique permutation sorted by the strict
composite order extended with the position tie-break, which is what
`stableSortIndices` computes. -/

/-- A sort-key column extracted from an attribute: numeric or string data
(masked arrays contribute `.filled()` data, `Time` its `.mjd`). -/
inductive Col where
  | ints (xs : List Int)
  | strs (xs : List String)
  deriving DecidableEq, Repr

/-- numpy's default fill value for int64 data, used by `.filled()`. -/
def fillValueInt : Int := 999999

/-- The value a member contributes to the sort `DataFrame`
(indexable.py:501-508). -/
def colOfFld : Fld → Except Err Col
  | .arr xs => .ok (.ints xs)
  | .sarr xs => .ok (.strs xs)
  | .marr d m => .ok (.ints ((d.zip m).map (fun p => if p.2 then fillValueInt else p.1)))
  | .time mjd _ => .ok (.ints mjd)
  | _ => .error .typeError

/-- Number of rows of a column. -/
def colLen : Col → Nat
  | .ints xs => xs.length
  | .strs xs => xs.length

/-- Attribute resolution for one sort key (indexable.py:474-499): first on
the entity itself, otherwise on *every* nested `Indexable` member that has
it (the loop has no break, so every match is appended); no match raises
AttributeError. -/
def resolveCol (e : Entity) (nm : String) : Except Err (List Col) :=
  match lookupF e nm with
  | some fl => do
    let c ← colOfFld fl
    .ok [c]
  | Option.none =>
    let hits := e.flds.filterMap (fun p =>
      match p.2 with
      | .nested en => lookupF en nm
      | _ => Option.none)
    if hits.isEmpty then .error .attributeError
    else mapME colOfFld hits

/-- Three-way comparison from a linear order (the comparison pandas applies
to a sort-key column). -/
def cmp3 {α : Type} [LinearOrder α] (x y : α) : Ordering :=
  if x < y then .lt else if x = y then .eq else .gt

/-- Compare rows `i` and `j` of one column. -/
def colCmp (c : Col) (i j : Nat) : Ordering :=
  match c with
  | .ints xs => cmp3 (xs.getD i 0) (xs.getD j 0)
  | .strs xs => cmp3 (xs.getD i "") (xs.getD j "")

/-- Compare rows `i` and `j` of one column, honouring its ascending flag
(descending swaps the comparison, as pandas `ascending=False` does). -/
def colCmpF (ca : Col × Bool) (i j : Nat) : Ordering :=
  if ca.2 then colCmp ca.1 i j else (colCmp ca.1 i j).swap

/-- Composite comparison of rows `i` and `j`: first non-equal column
decides. -/
def rowCmp : List (Col × Bool) → Nat → Nat → Ordering
  | [], _, _ => .eq
  | ca :: rest, i, j =>
    match colCmpF ca i j with
    | .eq => rowCmp rest i j
    | o => o

/-- The total order a stable sort realises: composite comparison with the
original row position as the final tie-break. -/
def sortLE (cs : List (Col × Bool)) (i j : Nat) : Bool :=
  match rowCmp cs i j with
  | .lt => true
  | .gt => false
  | .eq => decide (i ≤ j)

/-- Row permutation produced by the stable multi-key sort: the positions
`0..n-1` ordered by `sortLE` (a linear order, so this is the unique sorted
arrangement — the one a stable sort produces). -/
def stableSortIndices (cs : List (Col × Bool)) (n : Nat) : List Nat :=
  List.insertionSort (fun i j => sortLE cs i j = true) (List.range n)

/-- The per-key data columns `sort_values` hands to the pandas DataFrame
(indexable.py:501-514): resolve each key to its attribute values (every
nested match is appended, and `zip(by_, attributes)` pairs them positionally
with the key names; a duplicate key name keeps the last assignment, as a
python dict does), then read the columns back in key order. -/
def sortCols (e : Entity) (by_ : List String) : Except Err (List Col) := do
  let colsNested ← mapME (resolveCol e) by_
  let attrsFlat := colsNested.flatten
  let pairs := by_.zip attrsFlat
  mapME (fun nm =>
      match pairs.reverse.find? (fun p => p.1 = nm) with
      | some p => Except.ok p.2
      | Option.none => Except.error Err.keyError) by_

/-- `Indexable.sort_values(by, inplace=False, ascending)`
(indexable.py:426-546) for list-valued `by`/`ascending` (the other accepted
shapes are normalised to lists by the source).  Resolves the sort keys,
builds the data columns, computes the stably sorted row order, remembers
the index attribute, resets the entity to its default index
(`self.set_index()`), materialises the reordered copy through
`self[sorted_indices]`, and restores the saved index attribute on the copy.
The not-in-place variant is modelled; the in-place one installs the same
copy's attributes into `self`. -/
def sortValuesF (f : Nat) (e : Entity) (by_ : List String) (asc : List Bool)
    : Except Err Entity := do
  if by_.length ≠ asc.length then .error .assertionError
  else do
  let cols ← sortCols e by_
  let n := ((cols.map colLen).headD 0)
  if (cols.map colLen).all (fun l => l = n) then pure ()
  else .error (.valueError "All arrays must be of the same length")
  let sigma := stableSortIndices (cols.zip asc) n
  let st ← match e.ist with
    | some st => pure st
    | Option.none => .error .attributeError
  let e1 ← setIndex e .dflt
  let v ← getitemF f e1 (.list sigma)
  setIndex v (match st.attrName with
    | some nm => IndexSpec.attr nm
    | Option.none => IndexSpec.dflt)

/-! ## Well-formed default-indexed entities and specification-side views

`allValidB d n e` captures the entities the positive round-trip theorems
quantify over: every sliceable member (and, recursively, nested entity) has
`n` rows, member names are unique (python attribute dictionaries cannot
repeat a key), and the index is the default one `set_index()` builds —
`d` bounds the nesting depth.  `sliceEnt` and `gatherEnt` state, purely in
terms of `take`/`drop`/`map`, what a read is expected to return; the lemmas
below prove `__getitem__` equal to them. -/

/-- `queryIndex` lifted to an entity (an uninitialised entity has no index
attributes to query). -/
def queryE (e : Entity) (sel : Sel) : Except Err MemberSel :=
  match e.ist with
  | some st => queryIndex st sel
  | Option.none => .error .attributeError

/-- The per-row unit slices `set_index` builds for an all-unique key array. -/
def unitSlcs (n : Nat) : List Slc :=
  (List.range n).map (fun i => ⟨i, i + 1, 1⟩)

/-- The index state `set_index()` (no arguments) produces on members of
length `n`. -/
def defaultState (n : Nat) : IState :=
  ⟨.arr (List.range n), .slices (unitSlcs n), true, Option.none, List.range n, n⟩

/-- Every sliceable component of the member has exactly `n` rows. -/
def shallowLenOk (n : Nat) : Fld → Bool
  | .arr xs => xs.length == n
  | .sarr xs => xs.length == n
  | .marr d m => d.length == n && m.length == n
  | .time mjd _ => mjd.length == n
  | .nested _ => true
  | .opaq _ => true
  | .none => true

/-- A well-formed default-indexed entity of `n` rows and nesting depth
below `d`: the index state is `defaultState n`, member names are unique,
every member has `n` rows and every nested entity satisfies the same at
depth `d - 1`. -/
def allValidB : Nat → Nat → Entity → Bool
  | 0, _, _ => false
  | d + 1, n, e =>
    (e.ist == some (defaultState n))
    && decide (e.flds.map Prod.fst).Nodup
    && e.flds.all (fun p =>
        shallowLenOk n p.2
        && (match p.2 with
            | .nested en => allValidB d n en
            | _ => true))

/-- Specification-side contiguous row view `[a, b)` of an entity (applied
recursively to nested entities; the index attributes receive the values
`__getitem__` mechanically leaves in a view of a default-indexed entity). -/
def sliceEnt : Nat → Nat → Nat → Nat → Entity → Entity
  | 0, _, _, _, e => e
  | d + 1, n, a, b, e =>
    .mk (e.flds.map (fun p => (p.1,
        match p.2 with
        | .arr xs => Fld.arr ((xs.take b).drop a)
        | .sarr xs => Fld.sarr ((xs.take b).drop a)
        | .marr dd m => Fld.marr ((dd.take b).drop a) ((m.take b).drop a)
        | .time mjd sc => Fld.time ((mjd.take b).drop a) sc
        | .nested en => Fld.nested (sliceEnt d n a b en)
        | .opaq v => Fld.opaq v
        | .none => Fld.none)))
      (some ⟨.arr (((List.range n).take b).drop a),
             .slices (((unitSlcs n).take b).drop a),
             true, Option.none,
             ((List.range n).take b).drop a, n⟩)

instance : Inhabited Slc := ⟨⟨0, 0, 1⟩⟩

/-- Specification-side row gather of an entity by the position list `sg`
(applied recursively to nested entities). -/
def gatherEnt : Nat → Nat → List Nat → Entity → Entity
  | 0, _, _, e => e
  | d + 1, n, sg, e =>
    .mk (e.flds.map (fun p => (p.1,
        match p.2 with
        | .arr xs => Fld.arr (gatherD xs sg)
        | .sarr xs => Fld.sarr (gatherD xs sg)
        | .marr dd m => Fld.marr (gatherD dd sg) (gatherD m sg)
        | .time mjd sc => Fld.time (gatherD mjd sg) sc
        | .nested en => Fld.nested (gatherEnt d n sg en)
        | .opaq v => Fld.opaq v
        | .none => Fld.none)))
      (some ⟨.arr (gatherD (List.range n) sg),
             .slices (gatherD (unitSlcs n) sg),
             true, Option.none,
             gatherD (List.range n) sg, n⟩)

/-! ## Concrete entities used by the claims -/

/-- Members of the grouping-round-trip entity (P3): one plain array, one
masked array, one temporal member, all six rows long. -/
def fldsC3 : List (String × Fld) :=
  [("vals", .arr [10, 20, 30, 40, 50, 60]),
   ("m", .marr [1, 2, 3, 4, 5, 6] [true, false, true, false, true, false]),
   ("t", .time [51, 52, 53, 54, 55, 56] "utc")]

/-- The raw index keys `["a","a","b","c","c","c"]`. -/
def keysC3 : List Key := [.s "a", .s "a", .s "b", .s "c", .s "c", .s "c"]

/-- The entity `set_index` builds from `fldsC3` and `keysC3`. -/
def entC3 : Entity :=
  .mk fldsC3 (some ⟨.arr [0, 1, 2], .slices [⟨0, 2, 1⟩, ⟨2, 3, 1⟩, ⟨3, 6, 1⟩],
                    true, Option.none, [0, 1, 2, 3, 4, 5], 6⟩)

/-- The copy `entC3[2]` returns: rows 3-5 of every sliceable member, the
index attributes sliced mechanically (`_class_index` collapsed to the numpy
scalar `2`, `_member_length` still 6). -/
def viewC3 : Entity :=
  .mk [("vals", .arr [40, 50, 60]),
       ("m", .marr [4, 5, 6] [false, true, false]),
       ("t", .time [54, 55, 56] "utc")]
    (some ⟨.scal 2, .slices [], true, Option.none, [3, 4, 5], 6⟩)

/-- The copy `entC3[2:3]` returns (used against claim C2): the member rows
of key `"c"`, with `_member_length` still 6 and an empty mapping array. -/
def viewC2 : Entity :=
  .mk [("vals", .arr [40, 50, 60]),
       ("m", .marr [4, 5, 6] [false, true, false]),
       ("t", .time [54, 55, 56] "utc")]
    (some ⟨.arr [2], .slices [], true, Option.none, [3, 4, 5], 6⟩)

/-- Members of the C1 failing input. -/
def fldsC1 : List (String × Fld) := [("vals", .arr [10, 20, 30, 40])]

/-- The raw index keys `["a","b","a","a"]`: group `"a"` occupies the
non-contiguous rows 0, 2, 3, yet has the adjacent pair (2,3). -/
def keysC1 : List Key := [.s "a", .s "b", .s "a", .s "a"]

/-- The entity `set_index` actually builds from `keysC1`: slice form, with
slices that do not match the real row groups. -/
def entC1 : Entity :=
  .mk fldsC1 (some ⟨.arr [0, 1], .slices [⟨0, 3, 1⟩, ⟨3, 4, 1⟩],
                    true, Option.none, [0, 1, 2, 3], 4⟩)

/-- Members of the non-contiguous-fallback entity (P4). -/
def fldsC4 : List (String × Fld) :=
  [("vals", .arr [10, 20, 30]), ("t", .time [51, 52, 53] "utc")]

/-- The raw index keys `["a","b","a"]`: group `"a"` occupies rows 0 and 2
with no adjacent pair, so the slice conversion raises and raw form is kept. -/
def keysC4 : List Key := [.s "a", .s "b", .s "a"]

/-- The entity `set_index` builds from `keysC4`: raw form. -/
def entC4 : Entity :=
  .mk fldsC4 (some ⟨.arr [0, 1], .raw [0, 1, 0], false, Option.none, [0, 1, 2], 3⟩)

/-- The copy `entC4[0]` returns: rows 0 and 2, in original order. -/
def viewC4 : Entity :=
  .mk [("vals", .arr [10, 30]), ("t", .time [51, 53] "utc")]
    (some ⟨.scal 0, .raw [0, 0], false, Option.none, [0, 2], 3⟩)

/-- 100 raw index keys: 10 groups of 10 consecutive rows. -/
def keys100 : List Key := (List.range 100).map (fun i => Key.i (Int.ofNat (i / 10)))

/-- A 100-row member. -/
def vals100 : List Int := (List.range 100).map (fun i => Int.ofNat (i * 7))

/-- The slice-form entity over 100 rows in 10 groups of 10 (P8). -/
def entC5 : Entity :=
  .mk [("vals", .arr vals100)]
    (some ⟨.arr (List.range 10),
           .slices ((List.range 10).map (fun i => ⟨10 * i, 10 * i + 10, 1⟩)),
           true, Option.none, List.range 100, 100⟩)

/-- Members of the three-row grouped entity used by the delete /
concatenate / sort failing inputs. -/
def fldsG : List (String × Fld) := [("vals", .arr [10, 20, 30])]

/-- The raw index keys `["a","a","b"]`. -/
def keysG : List Key := [.s "a", .s "a", .s "b"]

/-- The grouped entity `set_index` builds from `keysG`. -/
def entG : Entity :=
  .mk fldsG (some ⟨.arr [0, 1], .slices [⟨0, 2, 1⟩, ⟨2, 3, 1⟩],
                   true, Option.none, [0, 1, 2], 3⟩)

/-- A four-row nested entity for the concatenation witness. -/
def innerC8 : Entity := .mk [("w", .arr [5, 6, 7, 8])] (some (defaultState 4))

/-- A four-row default-indexed entity with every member kind, for the
concatenation witness. -/
def entC8w : Entity :=
  .mk [("vals", .arr [10, 20, 30, 40]),
       ("names", .sarr ["p", "q", "r", "s"]),
       ("m", .marr [1, 2, 3, 4] [true, false, false, true]),
       ("t", .time [51, 52, 53, 54] "tdb"),
       ("sub", .nested innerC8),
       ("meta", .opaq (.str "x")),
       ("nil", Fld.none)]
    (some (defaultState 4))

/-- The P7 entity: rows carry the composite keys (x,2), (y,1), (z,2). -/
def entP7 : Entity :=
  .mk [("name", .sarr ["x", "y", "z"]), ("val", .arr [2, 1, 2])]
    (some (defaultState 3))

/-! ## Basic lemmas -/

/-- Unfolding of the bind on `Except`: an error on the left short-circuits. -/
theorem exceptBind_error {α β : Type} (e : Err) (g : α → Except Err β) :
    (Except.error e >>= g : Except Err β) = .error e := rfl

/-- Unfolding of the bind on `Except`: an ok value on the left feeds through. -/
theorem exceptBind_ok {α β : Type} (a : α) (g : α → Except Err β) :
    (Except.ok a >>= g : Except Err β) = g a := rfl

/-- `pure` on `Except` is `Except.ok`. -/
theorem exceptPure {α : Type} (a : α) : (pure a : Except Err α) = .ok a := rfl

/-- A successful bind on `Except` decomposes into a successful first step
and a successful continuation. -/
theorem bind_ok_elim {α β : Type} {x : Except Err α} {g : α → Except Err β} {v : β}
    (h : (x >>= g) = .ok v) : ∃ a, x = .ok a ∧ g a = .ok v := by
  cases x with
  | error e => exact absurd h (by simp [exceptBind_error])
  | ok a => exact ⟨a, rfl, h⟩

/-- Bounds check of `_query_index` (indexable.py:304-305): a slice whose
explicit start is at or past `len(self)` raises IndexError. -/
theorem queryIndex_oob (st : IState) (xs : List Nat) (s : Nat) (b : Option Nat)
    (hci : st.class_index = .arr xs) (hs : xs.length ≤ s) :
    queryIndex st (.slice (some s) b) = .error .indexError := by
  unfold queryIndex
  rw [hci]
  simp only [lenNp, exceptBind_ok]
  rw [if_pos hs]
  rfl

/-! ## Lemmas about the list primitives -/

/-- `mapME` succeeds pointwise. -/
theorem mapME_congr_ok {α β : Type} (g : α → Except Err β) (t : α → β) :
    ∀ (l : List α), (∀ x ∈ l, g x = .ok (t x)) → mapME g l = .ok (l.map t)
  | [], _ => rfl
  | a :: l, h => by
    rw [mapME, h a (List.mem_cons_self a l), exceptBind_ok,
        mapME_congr_ok g t l (fun x hx => h x (List.mem_cons_of_mem a hx)), exceptBind_ok,
        List.map_cons]

/-- `mapME` over a mapped list. -/
theorem mapME_map {α β γ : Type} (g : β → Except Err γ) (h : α → β) :
    ∀ (l : List α), mapME g (l.map h) = mapME (fun x => g (h x)) l
  | [] => rfl
  | a :: l => by
    rw [List.map_cons, mapME, mapME, mapME_map g h l]

/-- Fancy indexing with in-range indices is the total gather. -/
theorem gatherL_ok {α : Type} [Inhabited α] (xs : List α) :
    ∀ (is : List Nat), (∀ i ∈ is, i < xs.length) → gatherL xs is = .ok (gatherD xs is) := by
  intro is
  induction is with
  | nil => intro h; rfl
  | cons i rest ih =>
    intro h
    have hi : i < xs.length := h i (List.mem_cons_self i rest)
    have ht := ih (fun j hj => h j (List.mem_cons_of_mem i hj))
    simp only [gatherL, List.getElem?_eq_getElem hi, ht, exceptBind_ok, gatherD, List.map_cons]
    rw [List.getD_eq_getElem xs default hi]

/-- A step-1 slice is take-then-drop. -/
theorem applySlc_one {α : Type} (xs : List α) (a b : Nat) :
    applySlc xs ⟨a, b, 1⟩ = (xs.take b).drop a := by
  simp [applySlc]

/-- `uniqueFirstGo` on values that were all seen already. -/
theorem uniqueFirstGo_of_sub {α : Type} [DecidableEq α] :
    ∀ (l seen : List α), (∀ x ∈ l, x ∈ seen) → uniqueFirstGo seen l = []
  | [], _, _ => rfl
  | a :: l, seen, h => by
    rw [uniqueFirstGo, if_pos (h a (List.mem_cons_self a l))]
    exact uniqueFirstGo_of_sub l seen (fun x hx => h x (List.mem_cons_of_mem a hx))

/-- `uniqueFirstGo` on a constant list. -/
theorem uniqueFirstGo_const {α : Type} [DecidableEq α] (n : α) :
    ∀ (l seen : List α), (∀ x ∈ l, x = n) → n ∉ seen → l ≠ [] → uniqueFirstGo seen l = [n]
  | [], _, _, _, hne => absurd rfl hne
  | a :: l, seen, h, hn, _ => by
    have ha : a = n := h a (List.mem_cons_self a l)
    subst ha
    rw [uniqueFirstGo, if_neg hn]
    congr 1
    refine uniqueFirstGo_of_sub l (a :: seen) (fun x hx => ?_)
    rw [h x (List.mem_cons_of_mem a hx)]
    have := h a (List.mem_cons_self a l)
    rw [← this]
    exact List.mem_cons_self a seen

/-- `pd.unique` of a nonempty constant list. -/
theorem uniqueFirst_const {α : Type} [DecidableEq α] (n : α) (l : List α)
    (h : ∀ x ∈ l, x = n) (hne : l ≠ []) : uniqueFirst l = [n] :=
  uniqueFirstGo_const n l [] h (List.not_mem_nil n) hne

/-- `uniqueFirstGo` on a duplicate-free list disjoint from the seen set. -/
theorem uniqueFirstGo_nodup {α : Type} [DecidableEq α] :
    ∀ (l seen : List α), l.Nodup → (∀ x ∈ l, x ∉ seen) → uniqueFirstGo seen l = l
  | [], _, _, _ => rfl
  | a :: l, seen, h, hd => by
    have hna : a ∉ l := (List.nodup_cons.mp h).1
    have hl : l.Nodup := (List.nodup_cons.mp h).2
    rw [uniqueFirstGo, if_neg (hd a (List.mem_cons_self a l))]
    congr 1
    refine uniqueFirstGo_nodup l (a :: seen) hl (fun x hx => ?_)
    intro hmem
    rcases List.mem_cons.mp hmem with hxa | hxs
    · exact hna (hxa ▸ hx)
    · exact hd x (List.mem_cons_of_mem a hx) hxs

/-- `pd.unique` of a duplicate-free list is the list itself. -/
theorem uniqueFirst_nodup {α : Type} [DecidableEq α] (l : List α) (h : l.Nodup) :
    uniqueFirst l = l :=
  uniqueFirstGo_nodup l [] h (fun x _ => List.not_mem_nil x)

/-- On a duplicate-free list, mapping every value to its index enumerates
the positions. -/
theorem map_indexOf_self {α : Type} [DecidableEq α] :
    ∀ (l : List α), l.Nodup → l.map (fun x => l.indexOf x) = List.range l.length
  | [], _ => rfl
  | a :: t, h => by
    have hna : a ∉ t := (List.nodup_cons.mp h).1
    have ht : t.Nodup := (List.nodup_cons.mp h).2
    rw [List.map_cons, List.indexOf_cons_self, List.length_cons, List.range_succ_eq_map]
    congr 1
    have h1 : t.map (fun x => (a :: t).indexOf x) = t.map (fun x => (t.indexOf x) + 1) := by
      refine List.map_congr_left (fun x hx => ?_)
      have hxa : a ≠ x := fun hh => hna (hh ▸ hx)
      exact List.indexOf_cons_ne t hxa
    rw [h1]
    have h2 : t.map (fun x => (t.indexOf x) + 1)
        = (t.map (fun x => t.indexOf x)).map Nat.succ := by
      rw [List.map_map]
      rfl
    rw [h2, map_indexOf_self t ht]

/-- The dense remap of a duplicate-free key array enumerates the positions. -/
theorem mapToDense_nodup {α : Type} [DecidableEq α] (l : List α) (h : l.Nodup) :
    mapToDense l = List.range l.length := by
  unfold mapToDense
  rw [uniqueFirst_nodup l h]
  exact map_indexOf_self l h

/-- The default integer key array is duplicate-free. -/
theorem keyRange_nodup (n : Nat) :
    ((List.range n).map (fun i => Key.i (Int.ofNat i))).Nodup := by
  refine List.Nodup.map (fun a b hab => ?_) (List.nodup_range n)
  injection hab with h2
  exact Int.ofNat.inj h2

/-- The dense remap `set_index` applies to the default `np.arange` keys is
the identity. -/
theorem mapToDense_keyRange (n : Nat) :
    mapToDense ((List.range n).map (fun i => Key.i (Int.ofNat i))) = List.range n := by
  rw [mapToDense_nodup _ (keyRange_nodup n), List.length_map, List.length_range]

/-- The positions equal to `u` within `0..n-1`. -/
theorem filter_range_eq (n u : Nat) (h : u < n) :
    (List.range n).filter (fun i => decide (i = u)) = [u] := by
  induction n with
  | zero => omega
  | succ m ih =>
    rw [List.range_succ, List.filter_append]
    by_cases hu : u = m
    · subst hu
      have h0 : (List.range u).filter (fun i => decide (i = u)) = [] := by
        rw [List.filter_eq_nil_iff]
        intro a ha
        have := List.mem_range.mp ha
        simp only [decide_eq_true_eq]
        omega
      rw [h0]
      simp
    · have hum : u < m := by omega
      rw [ih hum]
      have h1 : ([m].filter (fun i => decide (i = u))) = [] := by
        simp only [List.filter, decide_eq_true_eq]
        rw [decide_eq_false (by omega)]
      rw [h1]
      simp

/-- `np.where(np.arange(n) == u)[0] = [u]`. -/
theorem positionsOf_range (n u : Nat) (h : u < n) : positionsOf (List.range n) u = [u] := by
  unfold positionsOf
  rw [List.length_range]
  have hc : ∀ i ∈ List.range n,
      (decide ((List.range n).getD i 0 = u)) = (decide (i = u)) := by
    intro i hi
    have hin : i < n := List.mem_range.mp hi
    rw [List.getD_eq_getElem _ _ (by simpa using hin), List.getElem_range]
  rw [List.filter_congr hc]
  exact filter_range_eq n u h

/-- `slicesGo` over unique values whose groups are singletons produces unit
slices from `start`. -/
theorem slicesGo_units (values : List Nat) :
    ∀ (us : List Nat) (start : Nat), (∀ u ∈ us, (positionsOf values u).length = 1) →
    slicesGo values us start
      = .ok ((List.range us.length).map (fun i => ⟨start + i, start + i + 1, 1⟩))
  | [], start, _ => rfl
  | u :: us, start, h => by
    have h1 : (positionsOf values u).length = 1 := h u (List.mem_cons_self u us)
    rw [slicesGo]
    rw [if_neg (fun hC => by rw [h1] at hC; omega)]
    rw [h1]
    rw [slicesGo_units values us (start + 1) (fun x hx => h x (List.mem_cons_of_mem u hx))]
    rw [exceptBind_ok]
    congr 1
    rw [List.length_cons, List.range_succ_eq_map, List.map_cons, List.map_map]
    congr 1
    refine List.map_congr_left (fun i _ => ?_)
    show (⟨start + 1 + i, start + 1 + i + 1, 1⟩ : Slc) = ⟨start + (i + 1), start + (i + 1) + 1, 1⟩
    congr 1 <;> omega

/-- `_convert_grouped_array_to_slices` on `np.arange(n)`: one unit slice per
row. -/
theorem convertGrouped_range (n : Nat) :
    convertGroupedArrayToSlices (List.range n) = .ok (unitSlcs n) := by
  unfold convertGroupedArrayToSlices
  rw [uniqueFirst_nodup _ (List.nodup_range n)]
  rw [slicesGo_units (List.range n) (List.range n) 0
        (fun u hu => by rw [positionsOf_range n u (List.mem_range.mp hu)]; rfl)]
  unfold unitSlcs
  rw [List.length_range]
  congr 1
  refine List.map_congr_left (fun i _ => ?_)
  show (⟨0 + i, 0 + i + 1, 1⟩ : Slc) = ⟨i, i + 1, 1⟩
  congr 1 <;> omega

/-- `_check_member_validity` when every counted length equals `n`. -/
theorem checkMember_const (fs : List (String × Fld)) (st : IState) (n : Nat)
    (hf : ∀ p ∈ fs, fldSliceLen p.2 = Option.none ∨ fldSliceLen p.2 = some n)
    (h1 : lenNp st.class_index = .ok n) (h2 : mappingLen st.mapping = n)
    (h3 : st.member_index.length = n) :
    checkMemberValidity (.mk fs (some st)) = .ok n := by
  unfold checkMemberValidity memberLens
  simp only [Entity.flds, Entity.ist, h1, exceptBind_ok, h2, h3]
  have hdl : ∀ x ∈ fs.filterMap (fun p => fldSliceLen p.2) ++ [n, n, n], x = n := by
    intro x hx
    rcases List.mem_append.mp hx with hx | hx
    · obtain ⟨p, hp, hfp⟩ := List.mem_filterMap.mp hx
      rcases hf p hp with hnone | hsome
      · rw [hnone] at hfp
        cases hfp
      · rw [hsome] at hfp
        cases hfp
        rfl
    · rcases List.mem_cons.mp hx with hx | hx
      · exact hx
      rcases List.mem_cons.mp hx with hx | hx
      · exact hx
      rcases List.mem_cons.mp hx with hx | hx
      · exact hx
      · cases hx
  rw [uniqueFirst_const n _ hdl (by simp)]

/-- `set_index()` with no argument, on members that all have `n` rows and
index bookkeeping arrays of length `n`, rebuilds exactly the default index
state. -/
theorem setIndex_dflt (fs : List (String × Fld)) (st : IState) (n : Nat)
    (hf : ∀ p ∈ fs, fldSliceLen p.2 = Option.none ∨ fldSliceLen p.2 = some n)
    (h1 : lenNp st.class_index = .ok n) (h2 : mappingLen st.mapping = n)
    (h3 : st.member_index.length = n) :
    setIndex (.mk fs (some st)) .dflt = .ok (.mk fs (some (defaultState n))) := by
  unfold setIndex
  rw [checkMember_const fs st n hf h1 h2 h3, exceptBind_ok]
  simp only [exceptPure, exceptBind_ok, Entity.flds]
  rw [mapToDense_keyRange n]
  rw [convertGrouped_range n]
  rw [uniqueFirst_nodup _ (List.nodup_range n)]
  rfl

/-! ## The read of a contiguous class range on a default-indexed entity -/

/-- Dropping from a `range'`. -/
theorem drop_range'_eq : ∀ (a s len : Nat),
    (List.range' s len).drop a = List.range' (s + a) (len - a)
  | 0, s, len => by simp
  | a + 1, s, 0 => by simp
  | a + 1, s, len + 1 => by
    rw [List.range'_succ, List.drop_succ_cons, drop_range'_eq a (s + 1) len]
    congr 1 <;> omega

/-- `take b` then `drop a` on `np.arange(n)`. -/
theorem take_drop_range (n a b : Nat) (hb : b ≤ n) :
    ((List.range n).take b).drop a = List.range' a (b - a) := by
  rw [List.take_range, Nat.min_eq_left hb, List.range_eq_range', drop_range'_eq a 0 b,
      Nat.zero_add]

/-- `take b` then `drop a` on the unit slices. -/
theorem unitSlcs_take_drop (n a b : Nat) (hb : b ≤ n) :
    ((unitSlcs n).take b).drop a
      = (List.range' a (b - a)).map (fun i => ⟨i, i + 1, 1⟩) := by
  unfold unitSlcs
  rw [← List.map_take, ← List.map_drop, take_drop_range n a b hb]

/-- Unit slices over consecutive positions pass the fusion test. -/
theorem consecutiveSlcs_range' : ∀ (len a : Nat),
    consecutiveSlcs ((List.range' a len).map (fun i => ⟨i, i + 1, 1⟩)) = true
  | 0, _ => rfl
  | 1, _ => rfl
  | len + 2, a => by
    have hrec := consecutiveSlcs_range' (len + 1) (a + 1)
    rw [List.range'_succ, List.map_cons]
    rw [List.range'_succ, List.map_cons]
    rw [consecutiveSlcs]
    rw [List.range'_succ, List.map_cons] at hrec
    simp only [show a + 1 + 1 = a + 2 from rfl] at hrec
    rw [hrec]
    simp

/-- Head and last of the mapped `range'` of unit slices. -/
theorem range'_map_slc_head_last : ∀ (len a : Nat), 0 < len →
    ∃ rest, (List.range' a len).map (fun i => (⟨i, i + 1, 1⟩ : Slc)) = ⟨a, a + 1, 1⟩ :: rest
      ∧ (rest.getLastD (⟨a, a + 1, 1⟩ : Slc)).stop = a + len
  | 0, _, h => absurd h (by omega)
  | 1, a, _ => ⟨[], by simp, by simp⟩
  | len + 2, a, _ => by
    obtain ⟨rest, hcons, hlast⟩ := range'_map_slc_head_last (len + 1) (a + 1) (by omega)
    refine ⟨⟨a + 1, a + 1 + 1, 1⟩ :: rest, ?_, ?_⟩
    · rw [List.range'_succ, List.map_cons, hcons]
    · rw [List.getLastD_cons, hlast]
      omega

/-- The slice-form branch of `_query_index` on the default index: a
contiguous class range fuses into the single member slice `[a, b)`. -/
theorem querySliceForm_default (n a b : Nat) (bOpt : Option Nat)
    (hab : a < b) (hbn : b ≤ n) (hb : (bOpt.getD n) ⊓ n = b) :
    querySliceForm (defaultState n) (some a) bOpt = .ok (.slc ⟨a, b, 1⟩) := by
  have hlen : (unitSlcs n).length = n := by
    unfold unitSlcs
    rw [List.length_map, List.length_range]
  have hsub : sliceList (unitSlcs n) (some a) bOpt
      = (List.range' a (b - a)).map (fun i => ⟨i, i + 1, 1⟩) := by
    unfold sliceList
    have htake : (unitSlcs n).take (Option.getD bOpt (unitSlcs n).length)
        = (unitSlcs n).take b := by
      rw [List.take_eq_take, hlen, inf_eq_left.mpr hbn, hb]
    show ((unitSlcs n).take (Option.getD bOpt (unitSlcs n).length)).drop (Option.getD (some a) 0)
        = _
    rw [htake]
    exact unitSlcs_take_drop n a b hbn
  show querySliceForm ⟨.arr (List.range n), .slices (unitSlcs n), true, Option.none,
        List.range n, n⟩ (some a) bOpt = _
  unfold querySliceForm
  simp only [hsub]
  rw [consecutiveSlcs_range' (b - a) a]
  obtain ⟨rest, hcons, hlast⟩ := range'_map_slc_head_last (b - a) a (by omega)
  rw [hcons]
  simp only [if_true]
  rw [List.getLastD_cons, hlast]
  have : a + (b - a) = b := by omega
  rw [this]

/-- The bounds-check-plus-fusion path of `_query_index` on the default
index. -/
theorem queryIndex_slice_default (n a b : Nat) (bOpt : Option Nat)
    (hab : a < b) (hbn : b ≤ n) (hb : (bOpt.getD n) ⊓ n = b) :
    queryIndex (defaultState n) (.slice (some a) bOpt) = .ok (.slc ⟨a, b, 1⟩) := by
  unfold queryIndex
  show (do
      (do
        let len ← lenNp (defaultState n).class_index
        if a ≥ len then Except.error Err.indexError else pure ())
      if (defaultState n).is_slice then querySliceForm (defaultState n) (some a) bOpt
      else queryFallback (defaultState n) (.slice (some a) bOpt)) = _
  have h1 : lenNp (defaultState n).class_index = .ok n := by
    show lenNp (.arr (List.range n)) = _
    rw [lenNp, List.length_range]
  rw [h1, exceptBind_ok]
  rw [if_neg (by omega : ¬ a ≥ n)]
  rw [exceptPure, exceptBind_ok]
  show querySliceForm (defaultState n) (some a) bOpt = _
  exact querySliceForm_default n a b bOpt hab hbn hb

/-- A read of the contiguous class range `[a, b)` (as a slice selection) on
a well-formed default-indexed entity returns exactly the take/drop view of
every member, recursively, with the index attributes sliced mechanically. -/
theorem getitem_slice_default : ∀ (d n a b : Nat) (bOpt : Option Nat) (e : Entity),
    allValidB d n e = true → a < b → b ≤ n → (bOpt.getD n) ⊓ n = b →
    getitemF d e (.slice (some a) bOpt) = .ok (sliceEnt d n a b e) := by
  intro d
  induction d with
  | zero =>
    intro n a b bOpt e hv _ _ _
    simp [allValidB] at hv
  | succ d ih =>
    intro n a b bOpt e hv hab hbn hb
    obtain ⟨fs, ist⟩ := e
    rw [allValidB] at hv
    rw [Bool.and_eq_true, Bool.and_eq_true] at hv
    obtain ⟨⟨histb, hnodup⟩, hall⟩ := hv
    have hist : ist = some (defaultState n) := eq_of_beq histb
    subst hist
    have hall2 : ∀ p ∈ fs, shallowLenOk n p.2 = true
        ∧ (match p.2 with | Fld.nested en => allValidB d n en | _ => true) = true := by
      intro p hp
      have h2 := List.all_eq_true.mp hall p hp
      rw [Bool.and_eq_true] at h2
      exact h2
    have hq := queryIndex_slice_default n a b bOpt hab hbn hb
    have hfs : mapME (sliceFldAux (getitemF d) (.slc ⟨a, b, 1⟩)) fs
        = .ok (fs.map (fun p => (p.1,
            match p.2 with
            | Fld.arr xs => Fld.arr ((xs.take b).drop a)
            | Fld.sarr xs => Fld.sarr ((xs.take b).drop a)
            | Fld.marr dd m => Fld.marr ((dd.take b).drop a) ((m.take b).drop a)
            | Fld.time mjd sc => Fld.time ((mjd.take b).drop a) sc
            | Fld.nested en => Fld.nested (sliceEnt d n a b en)
            | Fld.opaq v => Fld.opaq v
            | Fld.none => Fld.none))) := by
      apply mapME_congr_ok
      intro p hp
      obtain ⟨hsl, hnest⟩ := hall2 p hp
      obtain ⟨nm, fl⟩ := p
      cases fl with
      | arr xs =>
        simp only [sliceFldAux, applyMs, applySlc_one, exceptPure, exceptBind_ok]
      | sarr xs =>
        simp only [sliceFldAux, applyMs, applySlc_one, exceptPure, exceptBind_ok]
      | marr dd m =>
        simp only [sliceFldAux, applyMs, applySlc_one, exceptPure, exceptBind_ok]
      | time mjd sc =>
        simp only [sliceFldAux, applyMs, applySlc_one, exceptPure, exceptBind_ok]
      | nested en =>
        have hvn : allValidB d n en = true := hnest
        have hrec := ih n a b (some b) en hvn hab hbn (by
          show b ⊓ n = b
          exact inf_eq_left.mpr hbn)
        simp only [sliceFldAux, selOfMsel, hrec, exceptPure, exceptBind_ok]
      | opaq v => rfl
      | none => rfl
    have htk : (List.range n).take (Option.getD bOpt (List.range n).length)
        = (List.range n).take b := by
      rw [List.take_eq_take]
      simp only [List.length_range, inf_eq_left.mpr hbn]
      exact hb
    have hciv : classIndexView (NpIdx.arr (List.range n)) (.slice (some a) bOpt)
        = .ok (.arr (((List.range n).take b).drop a)) := by
      show Except.ok (NpIdx.arr (sliceList (List.range n) (some a) bOpt)) = _
      unfold sliceList
      rw [htk]
      rfl
    unfold defaultState at hq
    rw [getitemF]
    simp only [Entity.ist, Entity.flds, defaultState, exceptPure, exceptBind_ok, hq, hfs,
      hciv, applyMs, applyMsMapping, applySlc_one]
    rw [sliceEnt]
    simp only [Entity.flds, Entity.ist]

/-! ## Concatenation of the two halves of a default-indexed entity -/

/-- `find?` by name over a name-preserving member transform. -/
theorem find?_fst_map (t : String × Fld → Fld) (nm : String) :
    ∀ (fs : List (String × Fld)),
      (fs.map (fun p => (p.1, t p))).find? (fun p => p.1 = nm)
        = (fs.find? (fun p => p.1 = nm)).map (fun p => (p.1, t p))
  | [] => rfl
  | p :: fs => by
    rw [List.map_cons]
    by_cases h : p.1 = nm
    · rw [List.find?_cons_of_pos _ (by simpa using h), List.find?_cons_of_pos _ (by simpa using h)]
      rfl
    · rw [List.find?_cons_of_neg _ (by simpa using h), List.find?_cons_of_neg _ (by simpa using h)]
      exact find?_fst_map t nm fs

/-- With duplicate-free member names, `find?` by a member's name returns
that member. -/
theorem find?_of_nodup_mem :
    ∀ (fs : List (String × Fld)), (fs.map Prod.fst).Nodup →
      ∀ p ∈ fs, fs.find? (fun q => q.1 = p.1) = some p
  | [], _, p, hp => absurd hp (List.not_mem_nil p)
  | q :: fs, hn, p, hp => by
    rw [List.map_cons, List.nodup_cons] at hn
    rcases List.mem_cons.mp hp with rfl | hp2
    · exact List.find?_cons_of_pos _ (by simp)
    · have hq : ¬ (q.1 = p.1) := fun he =>
        hn.1 (he ▸ List.mem_map_of_mem Prod.fst hp2)
      rw [List.find?_cons_of_neg _ (by simpa using hq)]
      exact find?_of_nodup_mem fs hn.2 p hp2

/-- A sliceable-member length bounded by `shallowLenOk`. -/
theorem fldSliceLen_of_shallow (n : Nat) (fl : Fld) (h : shallowLenOk n fl = true) :
    fldSliceLen fl = Option.none ∨ fldSliceLen fl = some n := by
  cases fl with
  | arr xs =>
    right
    rw [shallowLenOk] at h
    rw [fldSliceLen, eq_of_beq h]
  | sarr xs =>
    right
    rw [shallowLenOk] at h
    rw [fldSliceLen, eq_of_beq h]
  | marr d m =>
    right
    rw [shallowLenOk, Bool.and_eq_true] at h
    rw [fldSliceLen, eq_of_beq h.1]
  | time mjd sc =>
    right
    rw [shallowLenOk] at h
    rw [fldSliceLen, eq_of_beq h]
  | nested en => left; rfl
  | opaq v => left; rfl
  | none => left; rfl

/-- Reassembling the two contiguous pieces of an `n`-row list. -/
theorem take_drop_join {α : Type} (n k : Nat) (xs : List α) (hlen : xs.length = n) :
    List.drop 0 (List.take k xs) ++ List.drop k (List.take n xs) = xs := by
  rw [List.drop_zero, ← hlen, List.take_length, List.take_append_drop]

/-- Concatenating the two contiguous class halves `[0:k]` and `[k:n]` of a
well-formed default-indexed entity reproduces the entity exactly, nested
entities, masked arrays, temporal members and opaque members included. -/
theorem concat_halves_default : ∀ (d n k : Nat) (e : Entity),
    allValidB d n e = true → 0 < k → k < n →
    concatEF d [sliceEnt d n 0 k e, sliceEnt d n k n e] = .ok e := by
  intro d
  induction d with
  | zero =>
    intro n k e hv _ _
    simp [allValidB] at hv
  | succ d ih =>
    intro n k e hv hk hkn
    obtain ⟨fs, ist⟩ := e
    rw [allValidB] at hv
    rw [Bool.and_eq_true, Bool.and_eq_true] at hv
    obtain ⟨⟨histb, hnodupb⟩, hall⟩ := hv
    have hist : ist = some (defaultState n) := eq_of_beq histb
    subst hist
    have hnodup : (fs.map Prod.fst).Nodup := by
      have := of_decide_eq_true hnodupb
      simpa [Entity.flds] using this
    have hall2 : ∀ p ∈ fs, shallowLenOk n p.2 = true
        ∧ (match p.2 with | Fld.nested en => allValidB d n en | _ => true) = true := by
      intro p hp
      have h2 := List.all_eq_true.mp hall p hp
      rw [Bool.and_eq_true] at h2
      exact h2
    rw [sliceEnt, sliceEnt]
    simp only [Entity.flds, Entity.ist]
    -- the second half, as the lookups will see it
    have hlook : ∀ q ∈ fs,
        lookupF (Entity.mk (fs.map (fun p => (p.1,
            match p.2 with
            | Fld.arr xs => Fld.arr ((xs.take n).drop k)
            | Fld.sarr xs => Fld.sarr ((xs.take n).drop k)
            | Fld.marr dd m => Fld.marr ((dd.take n).drop k) ((m.take n).drop k)
            | Fld.time mjd sc => Fld.time ((mjd.take n).drop k) sc
            | Fld.nested en => Fld.nested (sliceEnt d n k n en)
            | Fld.opaq v => Fld.opaq v
            | Fld.none => Fld.none)))
          (some ⟨.arr (((List.range n).take n).drop k),
                 .slices (((unitSlcs n).take n).drop k),
                 true, Option.none, ((List.range n).take n).drop k, n⟩)) q.1
        = some (match q.2 with
            | Fld.arr xs => Fld.arr ((xs.take n).drop k)
            | Fld.sarr xs => Fld.sarr ((xs.take n).drop k)
            | Fld.marr dd m => Fld.marr ((dd.take n).drop k) ((m.take n).drop k)
            | Fld.time mjd sc => Fld.time ((mjd.take n).drop k) sc
            | Fld.nested en => Fld.nested (sliceEnt d n k n en)
            | Fld.opaq v => Fld.opaq v
            | Fld.none => Fld.none) := by
      intro q hq
      unfold lookupF
      simp only [Entity.flds]
      rw [find?_fst_map]
      rw [find?_of_nodup_mem fs hnodup q hq]
      rfl
    have hfs2 : mapME (combineFldAux (concatEF d)
          [Entity.mk (fs.map (fun p => (p.1,
              match p.2 with
              | Fld.arr xs => Fld.arr ((xs.take n).drop k)
              | Fld.sarr xs => Fld.sarr ((xs.take n).drop k)
              | Fld.marr dd m => Fld.marr ((dd.take n).drop k) ((m.take n).drop k)
              | Fld.time mjd sc => Fld.time ((mjd.take n).drop k) sc
              | Fld.nested en => Fld.nested (sliceEnt d n k n en)
              | Fld.opaq v => Fld.opaq v
              | Fld.none => Fld.none)))
            (some ⟨.arr (((List.range n).take n).drop k),
                   .slices (((unitSlcs n).take n).drop k),
                   true, Option.none, ((List.range n).take n).drop k, n⟩)])
          (fs.map (fun p => (p.1,
            match p.2 with
            | Fld.arr xs => Fld.arr ((xs.take k).drop 0)
            | Fld.sarr xs => Fld.sarr ((xs.take k).drop 0)
            | Fld.marr dd m => Fld.marr ((dd.take k).drop 0) ((m.take k).drop 0)
            | Fld.time mjd sc => Fld.time ((mjd.take k).drop 0) sc
            | Fld.nested en => Fld.nested (sliceEnt d n 0 k en)
            | Fld.opaq v => Fld.opaq v
            | Fld.none => Fld.none)))
        = .ok fs := by
      rw [mapME_map]
      conv_rhs => rw [← List.map_id' fs]
      apply mapME_congr_ok
      intro p hp
      obtain ⟨hsl, hnest⟩ := hall2 p hp
      have hl := hlook p hp
      obtain ⟨nm, fl⟩ := p
      cases fl with
      | arr xs =>
        have hlen : xs.length = n := eq_of_beq hsl
        simp only [combineFldAux, mapME, hl, exceptPure, exceptBind_ok, List.flatten_cons,
          List.flatten_nil, List.append_nil]
        rw [take_drop_join n k xs hlen]
      | sarr xs =>
        have hlen : xs.length = n := eq_of_beq hsl
        simp only [combineFldAux, mapME, hl, exceptPure, exceptBind_ok, List.flatten_cons,
          List.flatten_nil, List.append_nil]
        rw [take_drop_join n k xs hlen]
      | marr dd m =>
        rw [shallowLenOk, Bool.and_eq_true] at hsl
        have hlen1 : dd.length = n := eq_of_beq hsl.1
        have hlen2 : m.length = n := eq_of_beq hsl.2
        simp only [combineFldAux, mapME, hl, exceptPure, exceptBind_ok, List.flatten_cons,
          List.flatten_nil, List.append_nil, List.map_cons, List.map_nil]
        rw [take_drop_join n k dd hlen1, take_drop_join n k m hlen2]
      | time mjd sc =>
        have hlen : mjd.length = n := eq_of_beq hsl
        simp only [combineFldAux, mapME, hl, exceptPure, exceptBind_ok, if_true,
          List.flatten_cons, List.flatten_nil, List.append_nil]
        rw [take_drop_join n k mjd hlen]
      | nested en =>
        have hvn : allValidB d n en = true := hnest
        have hrec := ih n k en hvn hk hkn
        simp only [combineFldAux, mapME, hl, exceptPure, exceptBind_ok, hrec]
      | opaq v =>
        simp only [combineFldAux, mapME, hl, exceptPure, exceptBind_ok, if_true]
      | none =>
        simp only [combineFldAux, mapME, hl, exceptPure, exceptBind_ok]
    rw [concatEF]
    simp only [Entity.flds, Entity.ist, exceptPure, exceptBind_ok, hfs2, mapME]
    -- the unsliceable-attribute asserts and the index-array concatenations
    simp only [ne_eq, not_true_eq_false, if_false, ite_false, if_neg, exceptPure,
      exceptBind_ok, List.flatten_cons, List.flatten_nil, List.append_nil, List.map_cons,
      List.map_nil]
    have hulen : (unitSlcs n).length = n := by
      unfold unitSlcs
      rw [List.length_map, List.length_range]
    rw [take_drop_join n k (List.range n) (List.length_range n),
        take_drop_join n k (unitSlcs n) hulen]
    exact setIndex_dflt fs _ n
      (fun p hp => fldSliceLen_of_shallow n p.2 (hall2 p hp).1)
      (by rw [lenNp, List.length_range])
      (by show (unitSlcs n).length = n; exact hulen)
      (List.length_range n)

/-- C8 amended (status: corrected).  For every well-formed entity carrying
the default row index (recursively, nested entities included — the state
`set_index()` builds, one key per member row), and every split position
`0 < k < n`: reading the two contiguous halves `entity[0:k]` and
`entity[k:]` and concatenating them in order reproduces the original entity
exactly — plain arrays, string arrays, masked arrays with their masks,
temporal members with their scale, nested entities, opaque members and
`None` members all keep the original values in the original row order, and
the rebuilt index equals the original.  (For a grouped index the same
pipeline raises ValueError — see the counterexample theorem.) -/
theorem c8_concat_halves_default_index_round_trip (d n k : Nat) (e : Entity)
    (hv : allValidB d n e = true) (hk : 0 < k) (hkn : k < n) :
    (do
      let a ← getitemF d e (.slice (some 0) (some k))
      let b ← getitemF d e (.slice (some k) Option.none)
      concatEF d [a, b]) = .ok e := by
  have h1 := getitem_slice_default d n 0 k (some k) e hv hk (le_of_lt hkn) (by
    show k ⊓ n = k
    exact inf_eq_left.mpr (le_of_lt hkn))
  have h2 := getitem_slice_default d n k n Option.none e hv hkn (le_refl n) (by
    show n ⊓ n = n
    exact inf_idem n)
  rw [h1, exceptBind_ok, h2, exceptBind_ok]
  exact concat_halves_default d n k e hv hk hkn

/-- C8 amended witness: a four-row default-indexed entity with a member of
every kind (array, string array, masked array, `Time`, nested entity,
opaque, `None`), split at row 2. -/
theorem c8_concat_halves_default_index_round_trip_witness :
    allValidB 2 4 entC8w = true
    ∧ 0 < 2 ∧ 2 < 4
    ∧ (do
        let a ← getitemF 2 entC8w (.slice (some 0) (some 2))
        let b ← getitemF 2 entC8w (.slice (some 2) Option.none)
        concatEF 2 [a, b]) = .ok entC8w :=
  ⟨rfl, by decide, by decide,
   c8_concat_halves_default_index_round_trip 2 4 2 entC8w rfl (by decide) (by decide)⟩

/-! ## The stable multi-key order realised by `sort_values` -/

/-- `cmp3` is `.eq` exactly on equal values. -/
theorem cmp3_eq_iff {α : Type} [LinearOrder α] (x y : α) : cmp3 x y = .eq ↔ x = y := by
  unfold cmp3
  rcases lt_trichotomy x y with h | h | h
  · rw [if_pos h]
    exact ⟨fun hc => (nomatch hc), fun hc => absurd hc (ne_of_lt h)⟩
  · rw [if_neg (by rw [h]; exact lt_irrefl y), if_pos h]
    exact ⟨fun _ => h, fun _ => rfl⟩
  · rw [if_neg (not_lt_of_gt h), if_neg (ne_of_gt h)]
    exact ⟨fun hc => (nomatch hc), fun hc => absurd hc (ne_of_gt h)⟩

/-- `cmp3` is `.lt` exactly on strictly smaller values. -/
theorem cmp3_lt_iff {α : Type} [LinearOrder α] (x y : α) : cmp3 x y = .lt ↔ x < y := by
  unfold cmp3
  rcases lt_trichotomy x y with h | h | h
  · rw [if_pos h]
    exact ⟨fun _ => h, fun _ => rfl⟩
  · rw [if_neg (by rw [h]; exact lt_irrefl y), if_pos h]
    exact ⟨fun hc => (nomatch hc), fun hc => absurd hc (by rw [h]; exact lt_irrefl y)⟩
  · rw [if_neg (not_lt_of_gt h), if_neg (ne_of_gt h)]
    exact ⟨fun hc => (nomatch hc), fun hc => absurd hc (not_lt_of_gt h)⟩

/-- Swapping the arguments of `cmp3` swaps the ordering. -/
theorem cmp3_swap {α : Type} [LinearOrder α] (x y : α) : cmp3 x y = (cmp3 y x).swap := by
  unfold cmp3
  rcases lt_trichotomy x y with h | h | h
  · rw [if_pos h, if_neg (not_lt_of_gt h), if_neg (ne_of_gt h)]
    rfl
  · rw [if_neg (by rw [h]; exact lt_irrefl y), if_pos h,
        if_neg (by rw [h]; exact lt_irrefl y), if_pos h.symm]
    rfl
  · rw [if_neg (not_lt_of_gt h), if_neg (ne_of_gt h), if_pos h]
    rfl

/-- `Ordering.swap` is `.eq` exactly on `.eq`. -/
theorem swap_eq_eq_iff (o : Ordering) : o.swap = .eq ↔ o = .eq := by
  cases o <;> simp [Ordering.swap]

/-- `Ordering.swap` is `.lt` exactly on `.gt`. -/
theorem swap_eq_lt_iff (o : Ordering) : o.swap = .lt ↔ o = .gt := by
  cases o <;> simp [Ordering.swap]

/-- Swapping the arguments of `colCmp` swaps the ordering. -/
theorem colCmp_swap (c : Col) (i j : Nat) : colCmp c i j = (colCmp c j i).swap := by
  cases c with
  | ints xs => exact cmp3_swap _ _
  | strs xs => exact cmp3_swap _ _

/-- `colCmp` is `.gt` exactly when the reversed comparison is `.lt`. -/
theorem colCmp_gt_iff_lt (c : Col) (i j : Nat) :
    colCmp c i j = .gt ↔ colCmp c j i = .lt := by
  constructor
  · intro h
    rw [colCmp_swap c j i, h]
    rfl
  · intro h
    rw [colCmp_swap c i j, h]
    rfl

/-- An `.eq` column comparison means equal key values, so comparing either
row against a third row gives the same answer. -/
theorem colCmp_congr_left (c : Col) (i j k : Nat) (h : colCmp c i j = .eq) :
    colCmp c i k = colCmp c j k := by
  cases c with
  | ints xs =>
    have hv : xs.getD i 0 = xs.getD j 0 := (cmp3_eq_iff _ _).mp h
    show cmp3 (xs.getD i 0) _ = cmp3 (xs.getD j 0) _
    rw [hv]
  | strs xs =>
    have hv : xs.getD i "" = xs.getD j "" := (cmp3_eq_iff _ _).mp h
    show cmp3 (xs.getD i "") _ = cmp3 (xs.getD j "") _
    rw [hv]

/-- Strict transitivity of a single column comparison. -/
theorem colCmp_lt_trans (c : Col) (i j k : Nat)
    (h1 : colCmp c i j = .lt) (h2 : colCmp c j k = .lt) : colCmp c i k = .lt := by
  cases c with
  | ints xs =>
    exact (cmp3_lt_iff _ _).mpr (lt_trans ((cmp3_lt_iff _ _).mp h1) ((cmp3_lt_iff _ _).mp h2))
  | strs xs =>
    exact (cmp3_lt_iff _ _).mpr (lt_trans ((cmp3_lt_iff _ _).mp h1) ((cmp3_lt_iff _ _).mp h2))

/-- A descending flag turns the column comparison into its swap. -/
theorem colCmpF_false (c : Col) (i j : Nat) : colCmpF (c, false) i j = (colCmp c i j).swap := rfl

/-- An ascending flag keeps the column comparison. -/
theorem colCmpF_true (c : Col) (i j : Nat) : colCmpF (c, true) i j = colCmp c i j := rfl

/-- Swapping the arguments of a flagged column comparison. -/
theorem colCmpF_swap (ca : Col × Bool) (i j : Nat) :
    colCmpF ca i j = (colCmpF ca j i).swap := by
  obtain ⟨c, a⟩ := ca
  cases a
  · rw [colCmpF_false, colCmpF_false, colCmp_swap c i j]
  · rw [colCmpF_true, colCmpF_true, colCmp_swap c i j]

/-- `.eq` for a flagged column comparison is `.eq` for the raw one. -/
theorem colCmpF_eq_iff (ca : Col × Bool) (i j : Nat) :
    colCmpF ca i j = .eq ↔ colCmp ca.1 i j = .eq := by
  obtain ⟨c, a⟩ := ca
  cases a
  · rw [colCmpF_false]
    exact swap_eq_eq_iff _
  · rw [colCmpF_true]

/-- Left congruence for a flagged column comparison. -/
theorem colCmpF_congr_left (ca : Col × Bool) (i j k : Nat) (h : colCmpF ca i j = .eq) :
    colCmpF ca i k = colCmpF ca j k := by
  have hc := colCmp_congr_left ca.1 i j k ((colCmpF_eq_iff ca i j).mp h)
  obtain ⟨c, a⟩ := ca
  cases a
  · rw [colCmpF_false, colCmpF_false, hc]
  · rw [colCmpF_true, colCmpF_true, hc]

/-- Right congruence for a flagged column comparison. -/
theorem colCmpF_congr_right (ca : Col × Bool) (i j k : Nat) (h : colCmpF ca j k = .eq) :
    colCmpF ca i j = colCmpF ca i k := by
  have hkj : colCmpF ca k j = .eq := by
    rw [colCmpF_swap ca k j]
    exact (swap_eq_eq_iff _).mpr h
  rw [colCmpF_swap ca i j, colCmpF_congr_left ca j k i h, ← colCmpF_swap ca i k]

/-- Strict transitivity of a flagged column comparison. -/
theorem colCmpF_lt_trans (ca : Col × Bool) (i j k : Nat)
    (h1 : colCmpF ca i j = .lt) (h2 : colCmpF ca j k = .lt) : colCmpF ca i k = .lt := by
  obtain ⟨c, a⟩ := ca
  cases a
  · rw [colCmpF_false] at h1 h2 ⊢
    rw [swap_eq_lt_iff] at h1 h2 ⊢
    rw [colCmp_gt_iff_lt] at h1 h2 ⊢
    exact colCmp_lt_trans c k j i h2 h1
  · rw [colCmpF_true] at h1 h2 ⊢
    exact colCmp_lt_trans c i j k h1 h2

/-- Swapping the arguments of the composite comparison. -/
theorem rowCmp_swap : ∀ (cs : List (Col × Bool)) (i j : Nat),
    rowCmp cs i j = (rowCmp cs j i).swap
  | [], _, _ => rfl
  | ca :: rest, i, j => by
    show (match colCmpF ca i j with | .eq => rowCmp rest i j | o => o)
      = (match colCmpF ca j i with | .eq => rowCmp rest j i | o => o).swap
    rw [colCmpF_swap ca i j]
    cases colCmpF ca j i
    · rfl
    · exact rowCmp_swap rest i j
    · rfl

/-- An `.eq` composite comparison means the rows agree on every sort key,
so comparing either against a third row gives the same answer. -/
theorem rowCmp_eq_left : ∀ (cs : List (Col × Bool)) (i j k : Nat),
    rowCmp cs i j = .eq → rowCmp cs i k = rowCmp cs j k
  | [], _, _, _, _ => rfl
  | ca :: rest, i, j, k, h => by
    have hh : (match colCmpF ca i j with | .eq => rowCmp rest i j | o => o) = .eq := h
    show (match colCmpF ca i k with | .eq => rowCmp rest i k | o => o)
      = (match colCmpF ca j k with | .eq => rowCmp rest j k | o => o)
    cases hc : colCmpF ca i j <;> rw [hc] at hh
    · exact Ordering.noConfusion hh
    · rw [colCmpF_congr_left ca i j k hc]
      cases colCmpF ca j k
      · rfl
      · exact rowCmp_eq_left rest i j k hh
      · rfl
    · exact Ordering.noConfusion hh

/-- Right congruence of the composite comparison across an `.eq` pair. -/
theorem rowCmp_eq_right (cs : List (Col × Bool)) (i j k : Nat)
    (h : rowCmp cs j k = .eq) : rowCmp cs i j = rowCmp cs i k := by
  rw [rowCmp_swap cs i j, rowCmp_eq_left cs j k i h, ← rowCmp_swap cs i k]

/-- Strict transitivity of the composite comparison. -/
theorem rowCmp_lt_trans : ∀ (cs : List (Col × Bool)) (i j k : Nat),
    rowCmp cs i j = .lt → rowCmp cs j k = .lt → rowCmp cs i k = .lt
  | [], _, _, _, h1, _ => Ordering.noConfusion h1
  | ca :: rest, i, j, k, h1, h2 => by
    have hh1 : (match colCmpF ca i j with | .eq => rowCmp rest i j | o => o) = .lt := h1
    have hh2 : (match colCmpF ca j k with | .eq => rowCmp rest j k | o => o) = .lt := h2
    show (match colCmpF ca i k with | .eq => rowCmp rest i k | o => o) = .lt
    cases hc1 : colCmpF ca i j <;> rw [hc1] at hh1
    · cases hc2 : colCmpF ca j k <;> rw [hc2] at hh2
      · rw [colCmpF_lt_trans ca i j k hc1 hc2]
      · have hik : colCmpF ca i k = .lt := by
          rw [← colCmpF_congr_right ca i j k hc2]
          exact hc1
        rw [hik]
      · exact Ordering.noConfusion hh2
    · cases hc2 : colCmpF ca j k <;> rw [hc2] at hh2
      · rw [colCmpF_congr_left ca i j k hc1, hc2]
      · rw [colCmpF_congr_left ca i j k hc1, hc2]
        exact rowCmp_lt_trans rest i j k hh1 hh2
      · exact Ordering.noConfusion hh2
    · exact Ordering.noConfusion hh1

/-- The tie-broken order is total. -/
theorem sortLE_total (cs : List (Col × Bool)) (i j : Nat) :
    sortLE cs i j = true ∨ sortLE cs j i = true := by
  unfold sortLE
  cases h : rowCmp cs i j
  · exact Or.inl rfl
  · have h2 : rowCmp cs j i = .eq := by rw [rowCmp_swap cs j i, h]; rfl
    rw [h2]
    rcases Nat.le_total i j with hle | hle
    · exact Or.inl (decide_eq_true hle)
    · exact Or.inr (decide_eq_true hle)
  · have h2 : rowCmp cs j i = .lt := by rw [rowCmp_swap cs j i, h]; rfl
    rw [h2]
    exact Or.inr rfl

/-- The tie-broken order is transitive. -/
theorem sortLE_trans (cs : List (Col × Bool)) (i j k : Nat)
    (h1 : sortLE cs i j = true) (h2 : sortLE cs j k = true) : sortLE cs i k = true := by
  unfold sortLE at h1 h2 ⊢
  cases hc1 : rowCmp cs i j <;> rw [hc1] at h1
  · cases hc2 : rowCmp cs j k <;> rw [hc2] at h2
    · rw [rowCmp_lt_trans cs i j k hc1 hc2]
    · rw [← rowCmp_eq_right cs i j k hc2, hc1]
    · exact Bool.noConfusion h2
  · cases hc2 : rowCmp cs j k <;> rw [hc2] at h2
    · rw [rowCmp_eq_left cs i j k hc1, hc2]
    · rw [rowCmp_eq_left cs i j k hc1, hc2]
      exact decide_eq_true (le_trans (of_decide_eq_true h1) (of_decide_eq_true h2))
    · exact Bool.noConfusion h2
  · exact Bool.noConfusion h1

/-- In a `Pairwise`-ordered list the relation holds from an earlier element
to a later one. -/
theorem pairwise_indexOf_rel {rel : Nat → Nat → Prop} (l : List Nat)
    (hp : l.Pairwise rel) (a b : Nat) (ha : a ∈ l) (hb : b ∈ l)
    (hlt : l.indexOf a < l.indexOf b) : rel a b := by
  have ha' : l.indexOf a < l.length := List.indexOf_lt_length.mpr ha
  have hb' : l.indexOf b < l.length := List.indexOf_lt_length.mpr hb
  have h := List.pairwise_iff_get.mp hp ⟨l.indexOf a, ha'⟩ ⟨l.indexOf b, hb'⟩ hlt
  rwa [List.indexOf_get ha', List.indexOf_get hb'] at h

/-- The stable sort permutation is a permutation of `np.arange(n)`. -/
theorem stableSort_perm (cs : List (Col × Bool)) (n : Nat) :
    (stableSortIndices cs n).Perm (List.range n) :=
  List.perm_insertionSort _ _

/-- The stable sort permutation is sorted for the tie-broken order. -/
theorem stableSort_sorted (cs : List (Col × Bool)) (n : Nat) :
    List.Sorted (fun i j => sortLE cs i j = true) (stableSortIndices cs n) := by
  haveI : IsTotal Nat (fun i j => sortLE cs i j = true) := ⟨sortLE_total cs⟩
  haveI : IsTrans Nat (fun i j => sortLE cs i j = true) := ⟨sortLE_trans cs⟩
  exact List.sorted_insertionSort _ _

/-- Stability: two rows with equal composite keys keep their original
relative order in the sorted permutation. -/
theorem stableSort_stable (cs : List (Col × Bool)) (n i j : Nat)
    (hij : i < j) (hj : j < n) (heq : rowCmp cs i j = .eq) :
    (stableSortIndices cs n).indexOf i < (stableSortIndices cs n).indexOf j := by
  have hperm := stableSort_perm cs n
  have hi : i ∈ stableSortIndices cs n :=
    hperm.mem_iff.mpr (List.mem_range.mpr (lt_trans hij hj))
  have hjm : j ∈ stableSortIndices cs n :=
    hperm.mem_iff.mpr (List.mem_range.mpr hj)
  have hnodup : (stableSortIndices cs n).Nodup :=
    hperm.nodup_iff.mpr (List.nodup_range n)
  by_contra hnot
  push_neg at hnot
  have hne : (stableSortIndices cs n).indexOf j ≠ (stableSortIndices cs n).indexOf i := by
    intro he
    exact absurd ((List.indexOf_inj hjm hi).mp he) (by omega)
  have hlt : (stableSortIndices cs n).indexOf j < (stableSortIndices cs n).indexOf i :=
    lt_of_le_of_ne hnot hne
  have hrel : sortLE cs j i = true :=
    pairwise_indexOf_rel _ (stableSort_sorted cs n) j i hjm hi hlt
  have hji : rowCmp cs j i = .eq := by rw [rowCmp_swap cs j i, heq]; rfl
  unfold sortLE at hrel
  rw [hji] at hrel
  exact absurd (of_decide_eq_true hrel) (by omega)

/-- Gathering from `np.arange(n)` by in-range positions returns the
positions themselves. -/
theorem gatherD_range (n : Nat) (sg : List Nat) (h : ∀ i ∈ sg, i < n) :
    gatherD (List.range n) sg = sg := by
  conv_rhs => rw [← List.map_id' sg]
  unfold gatherD
  apply List.map_congr_left
  intro i hi
  rw [List.getD_eq_getElem _ _ (by rw [List.length_range]; exact h i hi),
      List.getElem_range]

/-- `_query_index` on the default index resolves an in-range fancy index
list to itself (`self._class_index` equals `self._member_index`, so the
direct-indexing branch fires). -/
theorem queryIndex_list_default (n : Nat) (sg : List Nat) (h : ∀ i ∈ sg, i < n) :
    queryIndex (defaultState n) (.list sg) = .ok (.idx sg) := by
  show queryFallback (defaultState n) (.list sg) = _
  unfold queryFallback
  rw [if_pos (show npArrayEq (defaultState n).class_index (defaultState n).member_index
        = true from beq_self_eq_true (List.range n))]
  have hc : classIndexAt (defaultState n).class_index (.list sg) = .ok sg := by
    show gatherL (List.range n) sg = _
    rw [gatherL_ok (List.range n) sg (fun i hi => by
          rw [List.length_range]; exact h i hi),
        gatherD_range n sg h]
  rw [hc, exceptBind_ok]

/-- A read by an in-range fancy index list on a well-formed default-indexed
entity returns exactly the row gather of every member, recursively, with
the index attributes gathered mechanically. -/
theorem getitem_list_default : ∀ (d n : Nat) (sg : List Nat) (e : Entity),
    allValidB d n e = true → (∀ i ∈ sg, i < n) →
    getitemF d e (.list sg) = .ok (gatherEnt d n sg e) := by
  intro d
  induction d with
  | zero =>
    intro n sg e hv _
    simp [allValidB] at hv
  | succ d ih =>
    intro n sg e hv hsg
    obtain ⟨fs, ist⟩ := e
    rw [allValidB] at hv
    rw [Bool.and_eq_true, Bool.and_eq_true] at hv
    obtain ⟨⟨histb, hnodup⟩, hall⟩ := hv
    have hist : ist = some (defaultState n) := eq_of_beq histb
    subst hist
    have hall2 : ∀ p ∈ fs, shallowLenOk n p.2 = true
        ∧ (match p.2 with | Fld.nested en => allValidB d n en | _ => true) = true := by
      intro p hp
      have h2 := List.all_eq_true.mp hall p hp
      rw [Bool.and_eq_true] at h2
      exact h2
    have hq := queryIndex_list_default n sg hsg
    have hgat : ∀ {α : Type} [Inhabited α] (xs : List α), xs.length = n →
        applyMs xs (.idx sg) = .ok (gatherD xs sg) := by
      intro α _ xs hlen
      show gatherL xs sg = _
      exact gatherL_ok xs sg (fun i hi => by rw [hlen]; exact hsg i hi)
    have hfs : mapME (sliceFldAux (getitemF d) (.idx sg)) fs
        = .ok (fs.map (fun p => (p.1,
            match p.2 with
            | Fld.arr xs => Fld.arr (gatherD xs sg)
            | Fld.sarr xs => Fld.sarr (gatherD xs sg)
            | Fld.marr dd m => Fld.marr (gatherD dd sg) (gatherD m sg)
            | Fld.time mjd sc => Fld.time (gatherD mjd sg) sc
            | Fld.nested en => Fld.nested (gatherEnt d n sg en)
            | Fld.opaq v => Fld.opaq v
            | Fld.none => Fld.none))) := by
      apply mapME_congr_ok
      intro p hp
      obtain ⟨hsl, hnest⟩ := hall2 p hp
      obtain ⟨nm, fl⟩ := p
      cases fl with
      | arr xs =>
        have hlen : xs.length = n := by
          have := hsl
          simp [shallowLenOk] at this
          exact this
        simp only [sliceFldAux, hgat xs hlen, exceptPure, exceptBind_ok]
      | sarr xs =>
        have hlen : xs.length = n := by
          have := hsl
          simp [shallowLenOk] at this
          exact this
        simp only [sliceFldAux, hgat xs hlen, exceptPure, exceptBind_ok]
      | marr dd m =>
        have hlen : dd.length = n ∧ m.length = n := by
          have := hsl
          simp [shallowLenOk] at this
          exact this
        simp only [sliceFldAux, hgat dd hlen.1, hgat m hlen.2, exceptPure, exceptBind_ok]
      | time mjd sc =>
        have hlen : mjd.length = n := by
          have := hsl
          simp [shallowLenOk] at this
          exact this
        simp only [sliceFldAux, hgat mjd hlen, exceptPure, exceptBind_ok]
      | nested en =>
        have hvn : allValidB d n en = true := hnest
        have hrec := ih n sg en hvn hsg
        simp only [sliceFldAux, selOfMsel, hrec, exceptPure, exceptBind_ok]
      | opaq v => rfl
      | none => rfl
    have hciv : classIndexView (NpIdx.arr (List.range n)) (.list sg)
        = .ok (.arr (gatherD (List.range n) sg)) := by
      show (do
          let r ← gatherL (List.range n) sg
          Except.ok (NpIdx.arr r)) = _
      rw [gatherL_ok (List.range n) sg (fun i hi => by
            rw [List.length_range]; exact hsg i hi), exceptBind_ok]
    have hlenU : (unitSlcs n).length = n := by
      unfold unitSlcs
      rw [List.length_map, List.length_range]
    have hmp : applyMsMapping (Mapping.slices (unitSlcs n)) (.idx sg)
        = .ok (.slices (gatherD (unitSlcs n) sg)) := by
      show (do
          let r ← applyMs (unitSlcs n) (.idx sg)
          Except.ok (Mapping.slices r)) = _
      rw [hgat (unitSlcs n) hlenU, exceptBind_ok]
    rw [getitemF]
    unfold defaultState at hq
    simp only [Entity.ist, Entity.flds, defaultState, exceptPure, exceptBind_ok, hq, hfs,
      hciv, hmp, hgat (List.range n) (List.length_range n)]
    rw [gatherEnt]
    simp only [Entity.flds, Entity.ist]

/-- `sort_values` on a well-formed default-indexed entity: with the columns
it resolves for the sort keys all `n` rows long, the pipeline succeeds and
returns the row gather of every member by the stably sorted permutation,
carrying the rebuilt default index. -/
theorem sortValues_default (d n : Nat) (e : Entity) (by_ : List String)
    (asc : List Bool) (cols : List Col)
    (hv : allValidB d n e = true)
    (hlen : by_.length = asc.length)
    (hcols : sortCols e by_ = .ok cols)
    (hne : cols ≠ [])
    (hcl : ∀ c ∈ cols, colLen c = n) :
    sortValuesF d e by_ asc
      = .ok (.mk (gatherEnt d n (stableSortIndices (cols.zip asc) n) e).flds
                 (some (defaultState n))) := by
  cases d with
  | zero => simp [allValidB] at hv
  | succ d2 =>
  obtain ⟨fs, ist⟩ := e
  have hv2 := hv
  rw [allValidB] at hv2
  rw [Bool.and_eq_true, Bool.and_eq_true] at hv2
  obtain ⟨⟨histb, hnodup⟩, hall⟩ := hv2
  have hist : ist = some (defaultState n) := eq_of_beq histb
  subst hist
  have hall2 : ∀ p ∈ fs, shallowLenOk n p.2 = true := by
    intro p hp
    have h2 := List.all_eq_true.mp hall p hp
    rw [Bool.and_eq_true] at h2
    exact h2.1
  have hperm := stableSort_perm (cols.zip asc) n
  have hsn : ∀ i ∈ stableSortIndices (cols.zip asc) n, i < n :=
    fun i hi => List.mem_range.mp (hperm.mem_iff.mp hi)
  have hslen : (stableSortIndices (cols.zip asc) n).length = n := by
    rw [hperm.length_eq, List.length_range]
  have hhead : (cols.map colLen).headD 0 = n := by
    cases cols with
    | nil => exact absurd rfl hne
    | cons c rest =>
      rw [List.map_cons, List.headD_cons]
      exact hcl c (List.mem_cons_self c rest)
  have hallc : ((cols.map colLen).all (fun l => decide (l = n))) = true := by
    apply List.all_eq_true.mpr
    intro l hl
    obtain ⟨c, hc, rfl⟩ := List.mem_map.mp hl
    exact decide_eq_true (hcl c hc)
  have hlenU : (unitSlcs n).length = n := by
    unfold unitSlcs
    rw [List.length_map, List.length_range]
  have hf0 : ∀ p ∈ fs, fldSliceLen p.2 = Option.none ∨ fldSliceLen p.2 = some n :=
    fun p hp => fldSliceLen_of_shallow n p.2 (hall2 p hp)
  have h1d : lenNp (defaultState n).class_index = .ok n := by
    show lenNp (.arr (List.range n)) = _
    rw [lenNp, List.length_range]
  have hsetIdx : setIndex (.mk fs (some (defaultState n))) .dflt
      = .ok (.mk fs (some (defaultState n))) :=
    setIndex_dflt fs (defaultState n) n hf0 h1d hlenU (List.length_range n)
  have hget : getitemF (d2 + 1) (.mk fs (some (defaultState n)))
        (.list (stableSortIndices (cols.zip asc) n))
      = .ok (gatherEnt (d2 + 1) n (stableSortIndices (cols.zip asc) n)
          (.mk fs (some (defaultState n)))) :=
    getitem_list_default (d2 + 1) n (stableSortIndices (cols.zip asc) n)
      (.mk fs (some (defaultState n))) hv hsn
  have hgl : ∀ {α : Type} [Inhabited α] (xs : List α),
      (gatherD xs (stableSortIndices (cols.zip asc) n)).length = n := by
    intro α _ xs
    unfold gatherD
    rw [List.length_map, hslen]
  have hf1 : ∀ p ∈ ((Entity.mk fs (some (defaultState n))).flds.map (fun p => (p.1,
        match p.2 with
        | Fld.arr xs => Fld.arr (gatherD xs (stableSortIndices (cols.zip asc) n))
        | Fld.sarr xs => Fld.sarr (gatherD xs (stableSortIndices (cols.zip asc) n))
        | Fld.marr dd m => Fld.marr (gatherD dd (stableSortIndices (cols.zip asc) n))
            (gatherD m (stableSortIndices (cols.zip asc) n))
        | Fld.time mjd sc => Fld.time (gatherD mjd (stableSortIndices (cols.zip asc) n)) sc
        | Fld.nested en => Fld.nested (gatherEnt d2 n (stableSortIndices (cols.zip asc) n) en)
        | Fld.opaq v => Fld.opaq v
        | Fld.none => Fld.none))),
      fldSliceLen p.2 = Option.none ∨ fldSliceLen p.2 = some n := by
    intro p hp
    obtain ⟨q, hq, rfl⟩ := List.mem_map.mp hp
    obtain ⟨nm, fl⟩ := q
    cases fl with
    | arr xs => exact Or.inr (by rw [fldSliceLen, hgl xs])
    | sarr xs => exact Or.inr (by rw [fldSliceLen, hgl xs])
    | marr dd m => exact Or.inr (by rw [fldSliceLen, hgl dd])
    | time mjd sc => exact Or.inr (by rw [fldSliceLen, hgl mjd])
    | nested en => exact Or.inl rfl
    | opaq v => exact Or.inl rfl
    | none => exact Or.inl rfl
  have hsetIdx2 : setIndex (gatherEnt (d2 + 1) n (stableSortIndices (cols.zip asc) n)
        (.mk fs (some (defaultState n)))) .dflt
      = .ok (.mk (gatherEnt (d2 + 1) n (stableSortIndices (cols.zip asc) n)
          (.mk fs (some (defaultState n)))).flds (some (defaultState n))) := by
    rw [gatherEnt]
    simp only [Entity.flds, Entity.ist]
    exact setIndex_dflt _ _ n hf1
      (by show lenNp (.arr (gatherD (List.range n) (stableSortIndices (cols.zip asc) n))) = _
          rw [lenNp, hgl])
      (by show (gatherD (unitSlcs n) (stableSortIndices (cols.zip asc) n)).length = n
          exact hgl _)
      (hgl _)
  unfold sortValuesF
  rw [if_neg (show ¬ (by_.length ≠ asc.length) from fun h => h hlen)]
  rw [hcols, exceptBind_ok]
  simp only [hhead, hallc, if_true, exceptPure, exceptBind_ok, Entity.ist, defaultState]
  unfold defaultState at hsetIdx hget hsetIdx2
  simp only [hsetIdx, exceptBind_ok, hget, hsetIdx2]

/-! ## Claim theorems -/

/-- C1 (status: code_bug).  The claim says slice form is abandoned whenever
some key occupies a non-contiguous run of rows.  The code tests
`np.all(np.diff(mask) != 1)` — it only abandons when *no* pair of adjacent
occurrence positions is consecutive (the docstring of
`_convert_grouped_array_to_slices` promises a ValueError whenever the values
are not grouped, so the claim states the intent and the code has `all` where
`any` was meant).  On keys `["a","b","a","a"]` the group of `"a"` is the
non-contiguous position set {0, 2, 3}, the all-test passes because of the
adjacent pair (2, 3), slice form is kept with wrong slices, and
`entity[0]` consequently returns rows 0-2 instead of rows 0, 2, 3. -/
theorem c1_noncontiguous_group_kept_in_slice_form :
    initE fldsC1 (.keys keysC1) = .ok entC1
    ∧ positionsOf (mapToDense keysC1) 0 = [0, 2, 3]
    ∧ diffsAllNe1 [0, 2, 3] = false
    ∧ entC1.ist = some ⟨.arr [0, 1], .slices [⟨0, 3, 1⟩, ⟨3, 4, 1⟩],
                        true, Option.none, [0, 1, 2, 3], 4⟩
    ∧ (getitemF 9 entC1 (.int 0)).map Entity.flds = .ok [("vals", Fld.arr [10, 20, 30])] :=
  ⟨rfl, rfl, rfl, rfl, rfl⟩

/-- C3 (status: confirmed).  P3 grouping round trip: keys
`["a","a","b","c","c","c"]` group rows 0-1 / 2 / 3-5 (the class-to-member
slices are `[0:2)`, `[2:3)`, `[3:6)` over the dense key codes 0, 1, 2),
`len(entity) = 3`, and the read `entity[2]` (key `"c"`) returns exactly
member rows 3-5 of the plain array, the masked array (data and mask) and
the temporal member. -/
theorem c3_grouping_round_trip :
    initE fldsC3 (.keys keysC3) = .ok entC3
    ∧ entC3.ist = some ⟨.arr [0, 1, 2], .slices [⟨0, 2, 1⟩, ⟨2, 3, 1⟩, ⟨3, 6, 1⟩],
                        true, Option.none, [0, 1, 2, 3, 4, 5], 6⟩
    ∧ lenE entC3 = .ok 3
    ∧ getitemF 9 entC3 (.int 2) = .ok viewC3
    ∧ viewC3.flds = [("vals", .arr [40, 50, 60]),
                     ("m", .marr [4, 5, 6] [false, true, false]),
                     ("t", .time [54, 55, 56] "utc")] :=
  ⟨rfl, rfl, rfl, rfl, rfl⟩

/-- C4 (status: confirmed).  P4 non-contiguous fallback: keys
`["a","b","a"]` make the slice conversion raise (positions {0, 2} of `"a"`
have no adjacent pair), so the mapping stays in raw form
(`[0, 1, 0]`, flag false), and the read `entity[0]` (key `"a"`) still
returns exactly rows 0 and 2, in original order, of every sliceable
member. -/
theorem c4_noncontiguous_fallback_raw_form :
    initE fldsC4 (.keys keysC4) = .ok entC4
    ∧ entC4.ist = some ⟨.arr [0, 1], .raw [0, 1, 0], false, Option.none, [0, 1, 2], 3⟩
    ∧ getitemF 9 entC4 (.int 0) = .ok viewC4
    ∧ viewC4.flds = [("vals", .arr [10, 30]), ("t", .time [51, 53] "utc")] :=
  ⟨rfl, rfl, rfl, rfl⟩

/-- C5 (status: confirmed).  P8 slice fusion: on the slice-form index over
100 rows in 10 groups of 10, the class-index range `[2:5]` resolves to the
single fused member range `[20:50)` (step 1), the read returns exactly
`vals100[20:50]`, and that equals the concatenation of the three underlying
per-group ranges `[20:30) ++ [30:40) ++ [40:50)`. -/
theorem c5_slice_fusion_correct :
    initE [("vals", Fld.arr vals100)] (.keys keys100) = .ok entC5
    ∧ queryE entC5 (.slice (some 2) (some 5)) = .ok (.slc ⟨20, 50, 1⟩)
    ∧ (getitemF 9 entC5 (.slice (some 2) (some 5))).map Entity.flds
        = .ok [("vals", Fld.arr (sliceList vals100 (some 20) (some 50)))]
    ∧ sliceList vals100 (some 20) (some 50)
        = sliceList vals100 (some 20) (some 30) ++ sliceList vals100 (some 30) (some 40)
          ++ sliceList vals100 (some 40) (some 50) :=
  ⟨rfl, rfl, rfl, rfl⟩

/-- C6 (status: confirmed).  For every entity (any members, any index state
whose class index is an array — `len(entity)` is only defined then), a range
selection whose start is at or past `len(entity)` makes the read fail with
IndexError; the error comes out of `_query_index`, which runs before any
member is touched, so the members of `e` are irrelevant to the conclusion.
An integer selection `i` is converted to the length-1 range `[i, i+1)`
before the same check (second conjunct, for every integer, in or out of
range). -/
theorem c6_out_of_range_start_raises (f : Nat) (e : Entity) (st : IState)
    (xs : List Nat) (sel : Sel) (s : Nat) (b : Option Nat)
    (hist : e.ist = some st) (hci : st.class_index = .arr xs) (hs : xs.length ≤ s)
    (hsel : sel = .int s ∨ sel = .slice (some s) b) :
    getitemF (f + 1) e sel = .error .indexError
    ∧ ∀ i : Nat, queryIndex st (.int i) = queryIndex st (.slice (some i) (some (i + 1))) := by
  constructor
  · have hq : queryIndex st sel = .error .indexError := by
      rcases hsel with h | h
      · rw [h]
        exact queryIndex_oob st xs s (some (s + 1)) hci hs
      · rw [h]
        exact queryIndex_oob st xs s b hci hs
    simp only [getitemF, hist, hq, exceptPure, exceptBind_ok, exceptBind_error]
  · intro i
    rfl

/-- C6 witness: the three-class entity `entC3` with the out-of-range integer
selection 3. -/
theorem c6_out_of_range_start_raises_witness :
    entC3.ist = some ⟨.arr [0, 1, 2], .slices [⟨0, 2, 1⟩, ⟨2, 3, 1⟩, ⟨3, 6, 1⟩],
                      true, Option.none, [0, 1, 2, 3, 4, 5], 6⟩
    ∧ ([0, 1, 2] : List Nat).length ≤ 3
    ∧ getitemF 1 entC3 (.int 3) = .error .indexError :=
  ⟨rfl, by decide,
   (c6_out_of_range_start_raises 0 entC3
      ⟨.arr [0, 1, 2], .slices [⟨0, 2, 1⟩, ⟨2, 3, 1⟩, ⟨3, 6, 1⟩],
       true, Option.none, [0, 1, 2, 3, 4, 5], 6⟩
      [0, 1, 2] (.int 3) 3 Option.none rfl rfl (by decide) (Or.inl rfl)).1⟩

/-- C7 (status: code_bug).  The claim (P5, and the worked example in the
class docstring, indexable.py:112-119) wants `del entity[i]` to drop the
key's member rows and shrink `len(entity)` by one.  In fact, for any entity
whose index groups several rows under one key, the deletion loop also
`np.delete`s the index bookkeeping arrays stored in the same `__dict__`
(`_class_index`, `_class_index_to_members`, `_member_index`), after which
the closing `set_index(self._class_index_attribute)` finds sliceable members
of different lengths and raises
`ValueError("All sliceable members must have the same length.")`.
Failing input: keys `["a","a","b"]`, `del entity[0]` — the resolved member
rows are `[0:2)` (third conjunct), but the rebuild crashes instead of
leaving a 1-key entity. -/
theorem c7_grouped_delete_raises_value_error :
    initE fldsG (.keys keysG) = .ok entG
    ∧ lenE entG = .ok 2
    ∧ queryE entG (.int 0) = .ok (.slc ⟨0, 2, 1⟩)
    ∧ delitemF 9 entG (.int 0)
        = .error (.valueError "All sliceable members must have the same length.") :=
  ⟨rfl, rfl, rfl, rfl⟩

/-- C2 counterexample (status: corrected).  The claim says the copy returned
by a read carries a valid *rebuilt* index (class index, mapping, member
index and member length mutually consistent, equal to a rebuild on the
copy).  The copy `entC3[2:3]` has members of three rows but still reports
`_member_length = 6`, carries an empty mapping array, and rebuilding the
index on it does not reproduce its state — it raises ValueError outright,
because the mangled index arrays are counted as sliceable members of
unequal lengths. -/
theorem c2_view_index_not_rebuilt_counterexample :
    getitemF 9 entC3 (.slice (some 2) (some 3)) = .ok viewC2
    ∧ (viewC2.flds.filterMap (fun p => fldSliceLen p.2)) = [3, 3, 3]
    ∧ viewC2.ist = some ⟨.arr [2], .slices [], true, Option.none, [3, 4, 5], 6⟩
    ∧ setIndex viewC2 .dflt
        = .error (.valueError "All sliceable members must have the same length.") :=
  ⟨rfl, rfl, rfl, rfl⟩

/-- C2 amended (status: corrected).  A read never rebuilds an index: the
source entity is untouched (the operation builds a fresh copy — in this
pure embedding the source value is by construction not modified), and the
copy's index attributes are produced mechanically by the member loop of
`__getitem__`: `_member_length`, `_class_index_attribute` and
`_class_index_to_members_is_slice` are carried over verbatim from the
parent (they are unsliceable), whatever the selection resolved to. -/
theorem c2_view_index_attributes_carried_over (f : Nat) (e : Entity) (sel : Sel)
    (v : Entity) (h : getitemF f e sel = .ok v) :
    v.ist.map IState.member_length = e.ist.map IState.member_length
    ∧ v.ist.map IState.attrName = e.ist.map IState.attrName
    ∧ v.ist.map IState.is_slice = e.ist.map IState.is_slice := by
  match f with
  | 0 => exact absurd h (by simp [getitemF])
  | f + 1 =>
    rcases hist : e.ist with _ | st
    · rw [getitemF, hist] at h
      exact absurd h (by simp [exceptBind_error])
    · rw [getitemF] at h
      simp only [hist, exceptPure, exceptBind_ok] at h
      obtain ⟨msel, hq, h⟩ := bind_ok_elim h
      obtain ⟨fs2, hf, h⟩ := bind_ok_elim h
      obtain ⟨ci, hc, h⟩ := bind_ok_elim h
      obtain ⟨mi, hm, h⟩ := bind_ok_elim h
      obtain ⟨mp, hp, h⟩ := bind_ok_elim h
      cases h
      exact ⟨rfl, rfl, rfl⟩

/-- C2 amended witness: the copy `entC3[2:3]` — a copy with three member
rows that still carries the parent's `_member_length = 6`, attribute name
and slice-form flag. -/
theorem c2_view_index_attributes_carried_over_witness :
    getitemF 9 entC3 (.slice (some 2) (some 3)) = .ok viewC2
    ∧ viewC2.ist.map IState.member_length = entC3.ist.map IState.member_length
    ∧ viewC2.ist.map IState.attrName = entC3.ist.map IState.attrName
    ∧ viewC2.ist.map IState.is_slice = entC3.ist.map IState.is_slice :=
  ⟨rfl, c2_view_index_attributes_carried_over 9 entC3 (.slice (some 2) (some 3)) viewC2 rfl⟩

/-- C8 counterexample (status: corrected).  The claim quantifies over every
entity; for the grouped entity on keys `["a","a","b"]`, the two class
halves `[0:1]` and `[1:2]` are exactly the contiguous member-row halves
`[0:2)` and `[2:3)` (last two conjuncts), yet concatenating them does not
reproduce the entity — the final index rebuild inside `concatenate` sees
the concatenated index bookkeeping arrays as sliceable members of unequal
lengths and raises ValueError. -/
theorem c8_concat_halves_grouped_counterexample :
    initE fldsG (.keys keysG) = .ok entG
    ∧ (do
        let a ← getitemF 9 entG (.slice (some 0) (some 1))
        let b ← getitemF 9 entG (.slice (some 1) (some 2))
        concatEF 9 [a, b])
      = .error (.valueError "All sliceable members must have the same length.")
    ∧ queryE entG (.slice (some 0) (some 1)) = .ok (.slc ⟨0, 2, 1⟩)
    ∧ queryE entG (.slice (some 1) (some 2)) = .ok (.slc ⟨2, 3, 1⟩) :=
  ⟨rfl, rfl, rfl, rfl⟩

/-- C9 counterexample (status: corrected).  `sort_values` resets the entity
to its default index (`self.set_index()`, indexable.py:529) before
materialising the sorted copy; on a grouped entity that reset finds the
index bookkeeping arrays (length-2 class index over 3 member rows) as
sliceable members of unequal lengths and raises ValueError — no sort is
performed at all, stable or otherwise. -/
theorem c9_sort_grouped_counterexample :
    initE fldsG (.keys keysG) = .ok entG
    ∧ sortValuesF 9 entG ["vals"] [true]
        = .error (.valueError "All sliceable members must have the same length.") :=
  ⟨rfl, rfl⟩

/-- C10 (status: confirmed).  `_check_member_validity` requires the *set* of
sliceable-member lengths to have exactly one element; an entity with no
array, masked-array or temporal member yields the empty set and fails with
the very same `ValueError("All sliceable members must have the same
length.")` that mismatched lengths produce (second conjunct), for any index
spec — so an entity of only opaque or nested members cannot be indexed. -/
theorem c10_no_sliceable_members_cardinality_error (fs : List (String × Fld))
    (spec spec2 : IndexSpec)
    (h : fs.all (fun p => (fldSliceLen p.2).isNone) = true) :
    setIndex (.mk fs Option.none) spec
      = .error (.valueError "All sliceable members must have the same length.")
    ∧ setIndex (.mk [("a", Fld.arr [0]), ("b", Fld.arr [0, 1])] Option.none) spec2
      = .error (.valueError "All sliceable members must have the same length.") := by
  constructor
  · have hnil : fs.filterMap (fun p => fldSliceLen p.2) = [] := by
      rw [List.filterMap_eq_nil_iff]
      intro p hp
      exact Option.isNone_iff_eq_none.mp (List.all_eq_true.mp h p hp)
    have hchk : checkMemberValidity (.mk fs Option.none)
        = .error (.valueError "All sliceable members must have the same length.") := by
      unfold checkMemberValidity memberLens
      simp only [Entity.flds, Entity.ist, hnil, exceptBind_ok]
      rfl
    rw [setIndex, hchk]
    rfl
  · rfl

/-- C10 witness: an entity holding only an opaque value and a nested entity
cannot be indexed, with the same error as the mismatched-length entity. -/
theorem c10_no_sliceable_members_cardinality_error_witness :
    ([("meta", Fld.opaq (.str "m")), ("sub", Fld.nested entG)] : List (String × Fld)).all
        (fun p => (fldSliceLen p.2).isNone) = true
    ∧ setIndex (.mk [("meta", Fld.opaq (.str "m")), ("sub", Fld.nested entG)] Option.none) .dflt
        = .error (.valueError "All sliceable members must have the same length.")
    ∧ setIndex (.mk [("a", Fld.arr [0]), ("b", Fld.arr [0, 1])] Option.none) .dflt
        = .error (.valueError "All sliceable members must have the same length.") :=
  ⟨rfl,
   (c10_no_sliceable_members_cardinality_error
      [("meta", Fld.opaq (.str "m")), ("sub", Fld.nested entG)] .dflt .dflt rfl).1,
   (c10_no_sliceable_members_cardinality_error
      [("meta", Fld.opaq (.str "m")), ("sub", Fld.nested entG)] .dflt .dflt rfl).2⟩

/-- C9 amended (status: corrected).  For a well-formed entity carrying the
default row index, `sort_values(by, ascending)` performs a stable multi-key
sort: writing `σ` for the stably sorted arrangement of the row positions
`0..n-1` (ordered by the composite per-key comparison — a descending key
swaps its comparison — with the original position as tie-break), `σ` is a
permutation of `0..n-1`, it is sorted for that order, rows with equal
composite keys keep their original relative order, and the returned entity
is exactly the row gather of every member by `σ`, carrying the rebuilt
default index.  On the P7 rows `("x",2), ("y",1), ("z",2)` sorted ascending
by the numeric key this yields the order y, x, z.  (For a grouped index the
pipeline instead raises ValueError at its internal `self.set_index()` reset
— see the counterexample theorem.) -/
theorem c9_stable_sort_default_index (d n : Nat) (e : Entity) (by_ : List String)
    (asc : List Bool) (cols : List Col)
    (hv : allValidB d n e = true) (hlen : by_.length = asc.length)
    (hcols : sortCols e by_ = .ok cols) (hne : cols ≠ [])
    (hcl : ∀ c ∈ cols, colLen c = n) :
    (stableSortIndices (cols.zip asc) n).Perm (List.range n)
    ∧ List.Sorted (fun i j => sortLE (cols.zip asc) i j = true)
        (stableSortIndices (cols.zip asc) n)
    ∧ (∀ i j, i < j → j < n → rowCmp (cols.zip asc) i j = .eq →
        (stableSortIndices (cols.zip asc) n).indexOf i
          < (stableSortIndices (cols.zip asc) n).indexOf j)
    ∧ sortValuesF d e by_ asc
        = .ok (.mk (gatherEnt d n (stableSortIndices (cols.zip asc) n) e).flds
                   (some (defaultState n))) :=
  ⟨stableSort_perm _ n, stableSort_sorted _ n,
   fun i j hij hj he => stableSort_stable _ n i j hij hj he,
   sortValues_default d n e by_ asc cols hv hlen hcols hne hcl⟩

/-- C9 amended witness: the three-row P7 entity with composite keys (x,2),
(y,1), (z,2), sorted ascending by the numeric key `"val"`; the sorted row
order is `[1, 0, 2]` — y first, then x before z by stability. -/
theorem c9_stable_sort_default_index_witness :
    allValidB 2 3 entP7 = true
    ∧ sortValuesF 2 entP7 ["val"] [true]
        = .ok (.mk (gatherEnt 2 3 (stableSortIndices ([Col.ints [2, 1, 2]].zip [true]) 3)
            entP7).flds (some (defaultState 3))) :=
  ⟨rfl, (c9_stable_sort_default_index 2 3 entP7 ["val"] [true] [Col.ints [2, 1, 2]]
      rfl rfl rfl (by decide) (by decide)).2.2.2⟩

end AdamCore
